import Mathlib

/-!
Verification of the css-querySelector-by-styles library.

The JavaScript source (src/css-querySelector-by-styles.js) is shallowly
embedded here: every function keeps its source name where Lean allows it.
DOM elements are modelled by the inductive `Node` tree; object identity of
a DOM element is modelled by the `id` field of its `NodeData`.  The host
collaborators that the library calls (`querySelectorAll`, `matches`,
`children`, `getComputedStyle`) are modelled on that tree: a node carries
the list of structural selectors it matches (`sels`, with the wildcard
selector matching every node), its computed style as a camel-cased
association list (`styles`, the indexed accesses on a computed-style
object) and a kebab-cased association list (`stylesByName`, the
`getPropertyValue` accesses).  JavaScript strings become `String`,
JavaScript numbers that can be NaN become `Option Int`, and the
floating-point arithmetic in the HSL conversion is embedded with exact
rationals.
-/

namespace CssQuery

/-- The set of characters treated as whitespace by the JavaScript string
functions `trim`, `trimEnd` and the regular-expression class `\s`. -/
def jsWhitespace (c : Char) : Bool :=
  c = ' ' || c = '\t' || c = '\n' || c = '\r' || c = '\x0b' || c = '\x0c' ||
  c = '\u00A0' || c = '\u1680' || ('\u2000' ≤ c && c ≤ '\u200A') ||
  c = '\u2028' || c = '\u2029' || c = '\u202F' || c = '\u205F' ||
  c = '\u3000' || c = '\uFEFF'

/-- `l` with leading and trailing JavaScript whitespace removed. -/
def jsTrimL (l : List Char) : List Char :=
  ((l.dropWhile jsWhitespace).reverse.dropWhile jsWhitespace).reverse

/-- JavaScript `String.prototype.trim`. -/
def jsTrim (s : String) : String := ⟨jsTrimL s.data⟩

/-- `l` with trailing JavaScript whitespace removed. -/
def jsTrimEndL (l : List Char) : List Char :=
  (l.reverse.dropWhile jsWhitespace).reverse

/-- JavaScript `s.endsWith(c)` for a one-character argument. -/
def strEndsWith (s : String) (c : Char) : Bool := s.data.getLast? = some c

/-- The three relationship modes of a rule segment. -/
inductive Relationship where
  | filter
  | descendant
  | child
deriving DecidableEq, Repr

/-- One parsed query segment: either a plain structural selector or a
selector together with a relationship mode and the raw text of its rule
block. -/
inductive Part where
  | plain (selector : String)
  | withRules (selector : String) (relationship : Relationship) (rules : String)
deriving DecidableEq, Repr

/-- The relationship computation of `parseQuery` (source lines 54-78):
given the selector text accumulated before an opening brace, a trailing
`>` on the trimmed text gives child mode with the `>` stripped, otherwise
exactly one character removed by `trimEnd` gives descendant mode, and
anything else gives filter mode. -/
def classifyRelationship (currentSelector : String) : Relationship × String :=
  let trimmedSelector := jsTrim currentSelector
  if strEndsWith trimmedSelector '>' then
    (Relationship.child, jsTrim ⟨trimmedSelector.data.dropLast⟩)
  else if currentSelector.data.length - (jsTrimEndL currentSelector.data).length = 1 then
    (Relationship.descendant, trimmedSelector)
  else
    (Relationship.filter, trimmedSelector)

/-- Overwrite the rules text of the last pushed part
(`parts[parts.length - 1].rules = currentRules.trim()`). -/
def setLastRules : List Part → String → List Part
  | [], _ => []
  | [Part.plain s], _ => [Part.plain s]
  | [Part.withRules sel rel _], r => [Part.withRules sel rel r]
  | p :: q :: ps, r => p :: setLastRules (q :: ps) r

/-- The scanner state of `parseQuery`. -/
structure ParseState where
  parts : List Part
  currentSelector : String
  inRules : Bool
  currentRules : String
  braceDepth : Int
  inQuotes : Bool
  quoteChar : Option Char
deriving Repr

/-- The character loop of `parseQuery` (source lines 35-113), one
constructor case per scanned character; `prev` is the previously scanned
character (`query[i - 1]`), used by the escaped-quote check. -/
def parseLoop (st : ParseState) (prev : Option Char) : List Char → List Part
  | [] =>
      if jsTrim st.currentSelector ≠ "" then
        st.parts ++ [Part.plain (jsTrim st.currentSelector)]
      else st.parts
  | c :: rest =>
      if st.inRules = false ∧ (c = '"' ∨ c = '\'') then
        let st' :=
          if st.inQuotes = false then
            { st with inQuotes := true, quoteChar := some c,
                      currentSelector := st.currentSelector.push c }
          else if some c = st.quoteChar ∧ prev ≠ some '\\' then
            { st with inQuotes := false, quoteChar := none,
                      currentSelector := st.currentSelector.push c }
          else
            { st with currentSelector := st.currentSelector.push c }
        parseLoop st' (some c) rest
      else if st.inRules = false then
        if c = '\x7b' ∧ st.inQuotes = false then
          let rs := classifyRelationship st.currentSelector
          parseLoop
            { st with parts := st.parts ++ [Part.withRules rs.2 rs.1 ""],
                      currentSelector := "", inRules := true, braceDepth := 1 }
            (some c) rest
        else
          parseLoop { st with currentSelector := st.currentSelector.push c } (some c) rest
      else
        if c = '\x7b' then
          parseLoop
            { st with braceDepth := st.braceDepth + 1,
                      currentRules := st.currentRules.push c } (some c) rest
        else if c = '\x7d' then
          if st.braceDepth - 1 = 0 then
            parseLoop
              { st with braceDepth := st.braceDepth - 1,
                        parts := setLastRules st.parts (jsTrim st.currentRules),
                        currentRules := "", inRules := false } (some c) rest
          else
            parseLoop
              { st with braceDepth := st.braceDepth - 1,
                        currentRules := st.currentRules.push c } (some c) rest
        else
          parseLoop { st with currentRules := st.currentRules.push c } (some c) rest

/-- The initial scanner state of `parseQuery`. -/
def initParseState : ParseState :=
  { parts := [], currentSelector := "", inRules := false, currentRules := "",
    braceDepth := 0, inQuotes := false, quoteChar := none }

/-- `parseQuery` (source lines 25-124). -/
def parseQuery (query : String) : List Part :=
  parseLoop initParseState none query.data

/-- Lookup in an association list, modelling a string-keyed read of a
JavaScript object or style mapping. -/
def lookupAssoc : List (String × String) → String → Option String
  | [], _ => none
  | (k, v) :: rest, key => if k = key then some v else lookupAssoc rest key

/-- Insertion into an association list, modelling `obj[key] = value` on a
JavaScript object: an existing key is updated in place, a new key is
appended, so enumeration order is insertion order. -/
def insertAssoc : List (String × String) → String → String → List (String × String)
  | [], k, v => [(k, v)]
  | (k', v') :: rest, k, v =>
      if k' = k then (k', v) :: rest else (k', v') :: insertAssoc rest k v

/-- The clause decomposition inside `parseCSSRules` (source lines 135-145):
find the first colon, trim property and value, and drop the clause when
either is missing or empty. -/
def clauseKV (line : String) : Option (String × String) :=
  match line.data.findIdx? (· = ':') with
  | none => none
  | some colonIndex =>
      let property := jsTrim ⟨line.data.take colonIndex⟩
      let value := jsTrim ⟨line.data.drop (colonIndex + 1)⟩
      if property ≠ "" ∧ value ≠ "" then some (property, value) else none

/-- One iteration of the clause loop of `parseCSSRules`: a valid clause
is written into the rules object, an invalid one is skipped. -/
def applyClause (rules : List (String × String)) (line : String) :
    List (String × String) :=
  match clauseKV line with
  | some pv => insertAssoc rules pv.1 pv.2
  | none => rules

/-- The body of `parseCSSRules` after the split on `;` (source lines
132-147): trim each piece, drop empty pieces, then fold the valid
`property: value` clauses into the rules object. -/
def parseCSSRulesFromLines (pieces : List String) : List (String × String) :=
  ((pieces.map jsTrim).filter (· ≠ "")).foldl applyClause []

/-- JavaScript `split` on a one-character separator. -/
def splitOnChar (sep : Char) : List Char → List (List Char)
  | [] => [[]]
  | c :: rest =>
      match splitOnChar sep rest with
      | [] => [[]]
      | piece :: pieces =>
          if c = sep then [] :: piece :: pieces else (c :: piece) :: pieces

/-- `parseCSSRules` (source lines 131-148). -/
def parseCSSRules (rulesString : String) : List (String × String) :=
  parseCSSRulesFromLines ((splitOnChar ';' rulesString.data).map (fun l => (⟨l⟩ : String)))

/-- `normalizePropertyName` (source lines 155-158): kebab-case to
camelCase, replacing each `-` followed by a lowercase ASCII letter by the
uppercased letter. -/
def normalizePropertyNameL : List Char → List Char
  | [] => []
  | '-' :: c :: rest =>
      if 'a' ≤ c ∧ c ≤ 'z' then c.toUpper :: normalizePropertyNameL rest
      else '-' :: normalizePropertyNameL (c :: rest)
  | c :: rest => c :: normalizePropertyNameL rest

/-- `normalizePropertyName` on strings. -/
def normalizePropertyName (property : String) : String :=
  ⟨normalizePropertyNameL property.data⟩

/-- The numeric value of a hexadecimal digit character, either case. -/
def hexDigitVal? (c : Char) : Option Nat :=
  if '0' ≤ c ∧ c ≤ '9' then some (c.toNat - '0'.toNat)
  else if 'a' ≤ c ∧ c ≤ 'f' then some (c.toNat - 'a'.toNat + 10)
  else if 'A' ≤ c ∧ c ≤ 'F' then some (c.toNat - 'A'.toNat + 10)
  else none

/-- Accumulate the value of a maximal leading run of hexadecimal digits. -/
def hexAccum (acc : Nat) : List Char → Nat
  | [] => acc
  | c :: rest =>
      match hexDigitVal? c with
      | some d => hexAccum (acc * 16 + d) rest
      | none => acc

/-- The value of a maximal nonempty leading run of hexadecimal digits;
`none` when the list does not start with a hexadecimal digit. -/
def hexPrefixVal : List Char → Option Nat
  | [] => none
  | c :: rest =>
      match hexDigitVal? c with
      | some d => some (hexAccum d rest)
      | none => none

/-- Strip a leading `0x` or `0X`, as `parseInt` with radix 16 does. -/
def strip0x (l : List Char) : List Char :=
  match l with
  | a :: b :: rest => if a = '0' ∧ (b = 'x' ∨ b = 'X') then rest else l
  | _ => l

/-- JavaScript `parseInt(s, 16)`: skip leading whitespace, read an
optional sign and an optional `0x` prefix, then the longest prefix of
hexadecimal digits; `none` models the NaN result. -/
def jsParseIntHex (s : String) : Option Int :=
  let l := s.data.dropWhile jsWhitespace
  let signAndRest : Int × List Char :=
    match l with
    | '-' :: rest => (-1, rest)
    | '+' :: rest => (1, rest)
    | _ => (1, l)
  match hexPrefixVal (strip0x signAndRest.2) with
  | some v => some (signAndRest.1 * (v : Int))
  | none => none

/-- A JavaScript number interpolated into a string: an integer prints in
decimal and the NaN result prints as `NaN`. -/
def jsNumToString : Option Int → String
  | none => "NaN"
  | some n => if n < 0 then "-" ++ toString n.natAbs else toString n.natAbs

/-- Remove the first occurrence of `c`, modelling `replace('#', '')`. -/
def removeFirstOcc (c : Char) : List Char → List Char
  | [] => []
  | x :: xs => if x = c then xs else x :: removeFirstOcc c xs

/-- JavaScript `substring(a, b)` on a character list, for `a ≤ b`. -/
def jsSubstring (l : List Char) (a b : Nat) : List Char := (l.take b).drop a

/-- `hexToRgb` (source lines 165-179). -/
def hexToRgb (hex : String) : String :=
  let h := removeFirstOcc '#' hex.data
  let h := if h.length = 3 then h.flatMap (fun c => [c, c]) else h
  let r := jsParseIntHex ⟨jsSubstring h 0 2⟩
  let g := jsParseIntHex ⟨jsSubstring h 2 4⟩
  let b := jsParseIntHex ⟨jsSubstring h 4 6⟩
  "rgb(" ++ jsNumToString r ++ "," ++ jsNumToString g ++ "," ++ jsNumToString b ++ ")"

/-- The helper inside `hslToRgb` (source lines 198-205), on exact
rationals. -/
def hue2rgb (p q t : ℚ) : ℚ :=
  let t := if t < 0 then t + 1 else t
  let t := if t > 1 then t - 1 else t
  if t < 1 / 6 then p + (q - p) * 6 * t
  else if t < 1 / 2 then q
  else if t < 2 / 3 then p + (q - p) * (2 / 3 - t) * 6
  else p

/-- JavaScript `Math.round` on an exact rational. -/
def jsRound (x : ℚ) : Int := ⌊x + 1 / 2⌋

/-- `hslToRgb` (source lines 188-215), on exact rationals. -/
def hslToRgb (h s l : ℚ) : String :=
  let h := h / 360
  let s := s / 100
  let l := l / 100
  if s = 0 then
    "rgb(" ++ jsNumToString (some (jsRound (l * 255))) ++ "," ++
      jsNumToString (some (jsRound (l * 255))) ++ "," ++
      jsNumToString (some (jsRound (l * 255))) ++ ")"
  else
    let q := if l < 1 / 2 then l * (1 + s) else l + s - l * s
    let p := 2 * l - q
    let r := hue2rgb p q (h + 1 / 3)
    let g := hue2rgb p q h
    let b := hue2rgb p q (h - 1 / 3)
    "rgb(" ++ jsNumToString (some (jsRound (r * 255))) ++ "," ++
      jsNumToString (some (jsRound (g * 255))) ++ "," ++
      jsNumToString (some (jsRound (b * 255))) ++ ")"

/-- The test of the anchored pattern `#[0-9a-f]{3,6}` with the
case-insensitive flag (source line 229). -/
def isHexColor (s : String) : Bool :=
  match s.data with
  | '#' :: ds => 3 ≤ ds.length && ds.length ≤ 6 && ds.all (fun c => (hexDigitVal? c).isSome)
  | _ => false

/-- A decimal-digit character. -/
def isDigit09 (c : Char) : Bool := '0' ≤ c && c ≤ '9'

/-- The numeric value of a list of decimal digits. -/
def digitsVal (l : List Char) : Nat :=
  l.foldl (fun a c => a * 10 + (c.toNat - '0'.toNat)) 0

/-- `parseFloat` of a matched group of shape digits, optionally followed
by a dot and more digits, as an exact rational. -/
def decGroupVal (intPart fracPart : List Char) : ℚ :=
  (digitsVal intPart : ℚ) + (digitsVal fracPart : ℚ) / ((10 : ℚ) ^ fracPart.length)

/-- Match the regular-expression fragment `\d+(?:\.\d+)?` at the head of
the list: the parsed value and the remaining characters, or `none` when
no digit starts the list. -/
def matchNum (l : List Char) : Option (ℚ × List Char) :=
  let ds := l.takeWhile isDigit09
  let rest := l.dropWhile isDigit09
  if ds.isEmpty then none
  else
    match rest with
    | '.' :: rest2 =>
        let fs := rest2.takeWhile isDigit09
        if fs.isEmpty then some ((digitsVal ds : ℚ), rest)
        else some (decGroupVal ds fs, rest2.dropWhile isDigit09)
    | _ => some ((digitsVal ds : ℚ), rest)

/-- Expect one literal character at the head of the list. -/
def expectChar (c : Char) : List Char → Option (List Char)
  | [] => none
  | x :: rest => if x = c then some rest else none

/-- Match the pattern
`hsl\(\s*(\d+(?:\.\d+)?)\s*,\s*(\d+(?:\.\d+)?)%\s*,\s*(\d+(?:\.\d+)?)%\s*\)`
(case-insensitive) at the head of the list, returning the three groups. -/
def matchHslAt (l : List Char) : Option (ℚ × ℚ × ℚ) :=
  match l with
  | c1 :: c2 :: c3 :: c4 :: rest =>
      if (c1 = 'h' ∨ c1 = 'H') ∧ (c2 = 's' ∨ c2 = 'S') ∧
         (c3 = 'l' ∨ c3 = 'L') ∧ c4 = '(' then
        match matchNum (rest.dropWhile jsWhitespace) with
        | none => none
        | some (h, r1) =>
            match expectChar ',' (r1.dropWhile jsWhitespace) with
            | none => none
            | some r2 =>
                match matchNum (r2.dropWhile jsWhitespace) with
                | none => none
                | some (s, r3) =>
                    match expectChar '%' r3 with
                    | none => none
                    | some r4 =>
                        match expectChar ',' (r4.dropWhile jsWhitespace) with
                        | none => none
                        | some r5 =>
                            match matchNum (r5.dropWhile jsWhitespace) with
                            | none => none
                            | some (lt, r6) =>
                                match expectChar '%' r6 with
                                | none => none
                                | some r7 =>
                                    match expectChar ')' (r7.dropWhile jsWhitespace) with
                                    | none => none
                                    | some _ => some (h, s, lt)
      else none
  | _ => none

/-- The unanchored search `value.match(hsl...)` (source line 234): try the
pattern at every position, leftmost match first. -/
def hslSearch : List Char → Option (ℚ × ℚ × ℚ)
  | [] => none
  | c :: rest =>
      match matchHslAt (c :: rest) with
      | some g => some g
      | none => hslSearch rest

/-- The named-color table (source lines 243-255). -/
def namedColors : List (String × String) :=
  [("transparent", "rgba(0,0,0,0)"),
   ("black", "rgb(0,0,0)"),
   ("white", "rgb(255,255,255)"),
   ("red", "rgb(255,0,0)"),
   ("green", "rgb(0,128,0)"),
   ("blue", "rgb(0,0,255)"),
   ("yellow", "rgb(255,255,0)"),
   ("cyan", "rgb(0,255,255)"),
   ("magenta", "rgb(255,0,255)"),
   ("gray", "rgb(128,128,128)"),
   ("grey", "rgb(128,128,128)")]

/-- `value.replace(/\s+/g, '')`: remove every whitespace character. -/
def removeAllWs (l : List Char) : List Char := l.filter (fun c => !jsWhitespace c)

/-- The tail of an `rgba?\\(...\\)` match after the opening parenthesis:
a nonempty run of non-`)` characters followed by `)`.  Returns the whole
matched text (prefix included) and the remaining characters. -/
def matchParenBody (pre r2 : List Char) : Option (List Char × List Char) :=
  match r2.dropWhile (· ≠ ')') with
  | ')' :: tail =>
      if (r2.takeWhile (· ≠ ')')).isEmpty then none
      else some (pre ++ r2.takeWhile (· ≠ ')') ++ [')'], tail)
  | _ => none

/-- Match the pattern `rgba?\\([^)]+\\)` at the head of the list: the
matched characters and the remaining characters. -/
def matchRgbaAt (l : List Char) : Option (List Char × List Char) :=
  match l with
  | 'r' :: 'g' :: 'b' :: 'a' :: '(' :: r2 => matchParenBody ['r', 'g', 'b', 'a', '('] r2
  | 'r' :: 'g' :: 'b' :: '(' :: r2 => matchParenBody ['r', 'g', 'b', '('] r2
  | _ => none

/-- A successful `matchParenBody` decomposes its input. -/
theorem matchParenBody_decomp {pre r2 m t : List Char}
    (h : matchParenBody pre r2 = some (m, t)) :
    pre ++ r2 = m ++ t ∧ t.length < r2.length := by
  unfold matchParenBody at h
  have hsplit : r2.takeWhile (· ≠ ')') ++ r2.dropWhile (· ≠ ')') = r2 :=
    List.takeWhile_append_dropWhile _ _
  split at h
  · next tail heq =>
    split at h
    · simp at h
    · simp only [Option.some.injEq, Prod.mk.injEq] at h
      obtain ⟨h1, h2⟩ := h
      subst h1; subst h2
      refine ⟨?_, ?_⟩
      · conv_lhs => rw [← hsplit, heq]
        simp
      · conv_rhs => rw [← hsplit, heq]
        simp
        omega
  · simp at h

/-- A successful `rgba?\\(...\\)` match decomposes the input and consumes at
least one character. -/
theorem matchRgbaAt_decomp {l m t : List Char} (h : matchRgbaAt l = some (m, t)) :
    l = m ++ t ∧ t.length < l.length := by
  unfold matchRgbaAt at h
  split at h
  · next r2 =>
    obtain ⟨h1, h2⟩ := matchParenBody_decomp h
    exact ⟨by simpa using h1, by simp; omega⟩
  · next r2 =>
    obtain ⟨h1, h2⟩ := matchParenBody_decomp h
    exact ⟨by simpa using h1, by simp; omega⟩
  · simp at h

/-- The global replacement `value.replace(/rgba?\([^)]+\)/g, m =>
m.replace(/\s+/g, ''))` (source lines 266-268): scan left to right,
collapse the whitespace inside every match, copy everything else.  Every
step of the scan consumes at least one character, so the recursion is
made structural on a fuel argument that starts at the input length. -/
def rgbaCollapseFuel : Nat → List Char → List Char
  | _, [] => []
  | 0, l => l
  | fuel + 1, c :: rest =>
      match matchRgbaAt (c :: rest) with
      | some mt => removeAllWs mt.1 ++ rgbaCollapseFuel fuel mt.2
      | none => c :: rgbaCollapseFuel fuel rest

/-- The `rgba?(...)` whitespace collapse at full fuel. -/
def rgbaCollapseGo (l : List Char) : List Char := rgbaCollapseFuel l.length l

/-- The hex-conversion step of `normalizeCSSValue` (source lines
229-231). -/
def hexStep (value : String) : String :=
  if isHexColor value then hexToRgb value else value

/-- The HSL-conversion step of `normalizeCSSValue` (source lines
234-240). -/
def hslStep (value : String) : String :=
  match hslSearch value.data with
  | some g => hslToRgb g.1 g.2.1 g.2.2
  | none => value

/-- The named-color substitution step of `normalizeCSSValue` (source
lines 243-259). -/
def namedStep (value : String) : String :=
  match lookupAssoc namedColors value with
  | some v => v
  | none => value

/-- `normalizeCSSValue` (source lines 222-271): trim and lowercase, then
hex-color conversion, HSL conversion, named-color substitution,
whitespace stripping, and the whitespace collapse inside `rgba?(...)`
substrings. -/
def normalizeCSSValue (value : String) : String :=
  if value = "" then ""
  else
    let value := ⟨(jsTrim value).data.map Char.toLower⟩
    ⟨rgbaCollapseGo (removeAllWs (namedStep (hslStep (hexStep value))).data)⟩

/-- The data carried by one DOM element: `id` models the object identity
of the element, `styles` the camel-case-keyed indexed reads on its
computed-style object, `stylesByName` its `getPropertyValue` reads, and
`sels` the structural selectors the element matches. -/
structure NodeData where
  id : Nat
  styles : List (String × String)
  stylesByName : List (String × String)
  sels : List String
deriving Repr

/-- A DOM element together with its subtree. -/
inductive Node where
  | node (data : NodeData) (children : List Node)
deriving Repr

/-- The children of a node (`element.children`). -/
def children : Node → List Node
  | .node _ cs => cs

/-- The data of a node. -/
def ndata : Node → NodeData
  | .node d _ => d

/-- The identity of a node. -/
def nodeId (n : Node) : Nat := (ndata n).id

mutual

/-- All strict descendants of a node, in document order. -/
def descendants : Node → List Node
  | .node _ cs => descendantsList cs

/-- All nodes of a forest (the roots and their descendants), in document
order. -/
def descendantsList : List Node → List Node
  | [] => []
  | c :: cs => c :: descendants c ++ descendantsList cs

end

/-- The host structural matcher `element.matches(selector)`: a node
matches the wildcard selector and every selector in its `sels` list. -/
def nodeMatches (n : Node) (sel : String) : Bool :=
  sel = "*" || (ndata n).sels.contains sel

/-- The host query `element.querySelectorAll(selector)`: the matching
strict descendants, in document order. -/
def querySelectorAllN (n : Node) (sel : String) : List Node :=
  (descendants n).filter (fun m => nodeMatches m sel)

mutual

/-- The subtree rooted at `c`, every node paired with its chain of strict
ancestors up to (excluding) the subtree the walk started from, nearest
parent first; `anc` is that chain for `c` itself.  This models the
`match.parentElement` walk of the filter mode, which stops at the query
root element. -/
def subtreeWithAnc : Node → List Node → List (Node × List Node)
  | .node d cs, anc =>
      (Node.node d cs, anc) :: forestWithAnc cs (Node.node d cs :: anc)

/-- `subtreeWithAnc` over a forest. -/
def forestWithAnc : List Node → List Node → List (Node × List Node)
  | [], _ => []
  | c :: cs, anc => subtreeWithAnc c anc ++ forestWithAnc cs anc

end

/-- Every strict descendant of `n` paired with its chain of strict
ancestors strictly below `n`, nearest parent first, in document order. -/
def descendantsWithAnc (n : Node) : List (Node × List Node) :=
  forestWithAnc (children n) []

/-- The resolved style read of `elementMatchesRules` (source line 284):
`computedStyle[normalizedProperty] || computedStyle.getPropertyValue(property)`.
The indexed read of an absent key is undefined and `getPropertyValue` of
an absent property is the empty string, and `||` takes the second operand
whenever the first is undefined or empty. -/
def resolveStyleValue (n : Node) (property : String) : String :=
  let normalizedProperty := normalizePropertyName property
  match lookupAssoc (ndata n).styles normalizedProperty with
  | some v =>
      if v = "" then ((lookupAssoc (ndata n).stylesByName property).getD "") else v
  | none => (lookupAssoc (ndata n).stylesByName property).getD ""

/-- `elementMatchesRules` (source lines 279-295): every rule pair must
match after normalization; evaluation stops at the first mismatch. -/
def elementMatchesRules (element : Node) : List (String × String) → Bool
  | [] => true
  | (property, expectedValue) :: rest =>
      if normalizeCSSValue expectedValue =
         normalizeCSSValue (resolveStyleValue element property) then
        elementMatchesRules element rest
      else false

/-- The filter-mode exclusion test (source lines 337-349): with at least
one previously recorded filter selector, a candidate is dropped when some
node of its ancestor chain matches one of those selectors. -/
def excludedBy (previousFilterSelectors : List String) (ancestors : List Node) : Bool :=
  if previousFilterSelectors.isEmpty then false
  else ancestors.any (fun a => previousFilterSelectors.any (fun s => nodeMatches a s))

/-- One iteration of the segment loop of `executeQuery` (source lines
310-413): the current element list and the previously recorded filter
selectors before the segment, and after it. -/
def execStep (st : List Node × List String) (part : Part) : List Node × List String :=
  match part with
  | .plain selector =>
      (st.1.flatMap (fun element => querySelectorAllN element selector), st.2)
  | .withRules selector relationship rulesText =>
      let rules := parseCSSRules rulesText
      match relationship with
      | .filter =>
          let next := st.1.flatMap (fun element =>
            let sel := if selector = "" then "*" else selector
            ((descendantsWithAnc element).filter (fun p => nodeMatches p.1 sel)).filterMap
              (fun p =>
                if excludedBy st.2 p.2 = false ∧ elementMatchesRules p.1 rules = true then
                  some p.1
                else none))
          (next, if selector = "" then st.2 else st.2 ++ [selector])
      | .descendant =>
          let next := st.1.flatMap (fun element =>
            if selector = "" then
              (querySelectorAllN element "*").filter
                (fun d => elementMatchesRules d rules)
            else
              (querySelectorAllN element selector).flatMap (fun m =>
                (querySelectorAllN m "*").filter
                  (fun d => elementMatchesRules d rules)))
          (next, st.2)
      | .child =>
          let next := st.1.flatMap (fun element =>
            let searchRoots :=
              if selector = "" then [element] else querySelectorAllN element selector
            searchRoots.flatMap (fun searchRoot =>
              (children searchRoot).filter (fun c => elementMatchesRules c rules)))
          (next, st.2)

/-- Keep the first occurrence of each node identity, modelling
`[...new Set(currentElements)]` where identity is the `id` field. -/
def dedupById (seen : List Nat) : List Node → List Node
  | [] => []
  | x :: xs =>
      if nodeId x ∈ seen then dedupById seen xs
      else x :: dedupById (nodeId x :: seen) xs

/-- The element list reaching the deduplication step of `executeQuery`. -/
def executeQueryRaw (query : String) (root : Node) : List Node :=
  ((parseQuery query).foldl execStep ([root], [])).1

/-- `executeQuery` up to the choice between first match and all matches
(source lines 304-423). -/
def executeQueryElems (query : String) (root : Node) : List Node :=
  dedupById [] (executeQueryRaw query root)

/-- `querySelectorAllWithCssRules` (source lines 441-443). -/
def querySelectorAllWithCssRules (query : String) (root : Node) : List Node :=
  executeQueryElems query root

/-- `querySelectorWithCssRules` (source lines 431-433): the first
deduplicated match, or `none` for the null result. -/
def querySelectorWithCssRules (query : String) (root : Node) : Option Node :=
  (executeQueryElems query root).head?

/-! ### Specification-side definitions for the relationship rule -/

/-- Stated from the spec: the number of trailing literal space characters
of the selector text before the opening brace. -/
def specTrailingSpaceCount (s : String) : Nat :=
  (s.data.reverse.takeWhile (· = ' ')).length

/-- Stated from the spec (claim C1 as written): trailing `>` on the
trimmed text gives Child; otherwise exactly one trailing space character
gives Descendant; anything else gives Filter. -/
def specRelationshipSpace (s : String) : Relationship :=
  if strEndsWith (jsTrim s) '>' then Relationship.child
  else if specTrailingSpaceCount s = 1 then Relationship.descendant
  else Relationship.filter

/-- The number of trailing JavaScript-whitespace characters of the
selector text before the opening brace. -/
def specTrailingWsCount (s : String) : Nat :=
  (s.data.reverse.takeWhile jsWhitespace).length

/-- Stated from the amended claim: trailing `>` on the trimmed text gives
Child; otherwise exactly one trailing whitespace character gives
Descendant; anything else gives Filter. -/
def specRelationshipWs (s : String) : Relationship :=
  if strEndsWith (jsTrim s) '>' then Relationship.child
  else if specTrailingWsCount s = 1 then Relationship.descendant
  else Relationship.filter

/-- Stated from the claim: the stored selector is the trimmed preceding
text, with a trailing `>` stripped (and re-trimmed) in Child mode. -/
def specSelectorOf (s : String) : String :=
  if strEndsWith (jsTrim s) '>' then jsTrim ⟨(jsTrim s).data.dropLast⟩
  else jsTrim s

/-- The length dropped by `trimEnd` is the length of the trailing
whitespace run. -/
theorem trimEnd_length_diff (s : String) :
    s.data.length - (jsTrimEndL s.data).length = specTrailingWsCount s := by
  unfold jsTrimEndL specTrailingWsCount
  have hsum := congrArg List.length
    (List.takeWhile_append_dropWhile (p := jsWhitespace) (l := s.data.reverse))
  simp only [List.length_append, List.length_reverse] at hsum ⊢
  omega

/-- The relationship computation of the source agrees with the
whitespace-count formulation of the amended claim. -/
theorem classifyRelationship_eq (s : String) :
    classifyRelationship s = (specRelationshipWs s, specSelectorOf s) := by
  unfold classifyRelationship specRelationshipWs specSelectorOf
  rw [trimEnd_length_diff]
  by_cases h1 : strEndsWith (jsTrim s) '>' = true
  · simp [h1]
  · by_cases h2 : specTrailingWsCount s = 1 <;> simp [h1, h2]

/-- Appending a pushed character. -/
theorem push_append_mk (s : String) (c : Char) (t : List Char) :
    s.push c ++ (⟨t⟩ : String) = s ++ ⟨c :: t⟩ := by
  show (⟨(s.data ++ [c]) ++ t⟩ : String) = ⟨s.data ++ (c :: t)⟩
  exact congrArg String.mk (by simp)

/-- Scanning selector text up to an opening brace: every character that is
not a brace or a quote is appended to the selector accumulator, and the
brace closes the accumulated text into a new rule segment classified by
`classifyRelationship`. -/
theorem parseLoop_open (t : List Char) :
    ∀ st prev rest, st.inRules = false → st.inQuotes = false →
    (∀ c ∈ t, c ≠ '\x7b' ∧ c ≠ '\x7d' ∧ c ≠ '"' ∧ c ≠ '\'') →
    parseLoop st prev (t ++ '\x7b' :: rest) =
      parseLoop
        { st with
            parts := st.parts ++
              [Part.withRules (classifyRelationship (st.currentSelector ++ ⟨t⟩)).2
                (classifyRelationship (st.currentSelector ++ ⟨t⟩)).1 ""],
            currentSelector := "", inRules := true, braceDepth := 1 }
        (some '\x7b') rest := by
  induction t with
  | nil =>
      intro st prev rest h1 h2 _
      have happ : st.currentSelector ++ (⟨[]⟩ : String) = st.currentSelector := by
        show (⟨st.currentSelector.data ++ []⟩ : String) = st.currentSelector
        exact congrArg String.mk (by simp)
      rw [happ]
      simp [parseLoop, h1, h2]
  | cons c t ih =>
      intro st prev rest h1 h2 hclean
      obtain ⟨hc1, hc2, hc3, hc4⟩ := hclean c (by simp)
      have hrest : ∀ x ∈ t, x ≠ '\x7b' ∧ x ≠ '\x7d' ∧ x ≠ '"' ∧ x ≠ '\'' :=
        fun x hx => hclean x (by simp [hx])
      have hstep :
          parseLoop st prev (c :: t ++ '\x7b' :: rest) =
            parseLoop { st with currentSelector := st.currentSelector.push c }
              (some c) (t ++ '\x7b' :: rest) := by
        simp [parseLoop, h1, h2, hc1, hc3, hc4]
      refine (show parseLoop st prev ((c :: t) ++ '\x7b' :: rest) =
          parseLoop { st with currentSelector := st.currentSelector.push c } (some c)
            (t ++ '\x7b' :: rest) from hstep).trans ?_
      rw [ih { st with currentSelector := st.currentSelector.push c } (some c) rest h1 h2 hrest]
      rw [push_append_mk]

/-- Scanning inside an unterminated rule block: with no further braces the
scan only accumulates rule text, which is never flushed, so the parts
already pushed are the final parse result. -/
theorem parseLoop_unterminated (t : List Char) :
    ∀ st prev, st.inRules = true → st.currentSelector = "" →
    (∀ c ∈ t, c ≠ '\x7b' ∧ c ≠ '\x7d') →
    parseLoop st prev t = st.parts := by
  induction t with
  | nil =>
      intro st prev _ h2 _
      simp [parseLoop, h2, jsTrim, jsTrimL]
  | cons c t ih =>
      intro st prev h1 h2 hclean
      obtain ⟨hc1, hc2⟩ := hclean c (by simp)
      have hrest : ∀ x ∈ t, x ≠ '\x7b' ∧ x ≠ '\x7d' :=
        fun x hx => hclean x (by simp [hx])
      have hstep :
          parseLoop st prev (c :: t) =
            parseLoop { st with currentRules := st.currentRules.push c } (some c) t := by
        simp [parseLoop, h1, hc1, hc2]
      rw [hstep]
      exact ih { st with currentRules := st.currentRules.push c } (some c) h1 h2 hrest

/-! ### Claim C1 -/

/-- C1, amended: the relationship of a rule segment is determined solely
by the text accumulated immediately before its opening brace: a trailing
`>` on the trimmed text gives Child with the `>` stripped from the stored
selector; otherwise exactly one trailing whitespace character (in the
sense of the source's `trimEnd`, not only the space character) gives
Descendant; in every other case the relationship is Filter.  Stated both
for an opening brace reached in any selector-scanning state and for a
whole single-block query. -/
theorem c1_relationship_classification :
    (∀ (st : ParseState) (prev : Option Char) (t rest : List Char),
      st.inRules = false → st.inQuotes = false →
      (∀ c ∈ t, c ≠ '\x7b' ∧ c ≠ '\x7d' ∧ c ≠ '"' ∧ c ≠ '\'') →
      parseLoop st prev (t ++ '\x7b' :: rest) =
        parseLoop
          { st with
              parts := st.parts ++
                [Part.withRules (specSelectorOf (st.currentSelector ++ ⟨t⟩))
                  (specRelationshipWs (st.currentSelector ++ ⟨t⟩)) ""],
              currentSelector := "", inRules := true, braceDepth := 1 }
          (some '\x7b') rest)
    ∧ (∀ s : String,
        (∀ c ∈ s.data, c ≠ '\x7b' ∧ c ≠ '\x7d' ∧ c ≠ '"' ∧ c ≠ '\'') →
        parseQuery (s ++ "\x7b\x7d") =
          [Part.withRules (specSelectorOf s) (specRelationshipWs s) ""]) := by
  constructor
  · intro st prev t rest h1 h2 hclean
    rw [parseLoop_open t st prev rest h1 h2 hclean, classifyRelationship_eq]
  · intro s hs
    show parseLoop initParseState none (s.data ++ '\x7b' :: ['\x7d']) = _
    rw [parseLoop_open s.data initParseState none ['\x7d'] rfl rfl hs,
      classifyRelationship_eq]
    have hsel : initParseState.currentSelector ++ (⟨s.data⟩ : String) = s := rfl
    rw [hsel]
    simp [parseLoop, setLastRules, initParseState, jsTrim, jsTrimL]

/-- C1 witness: a single trailing space gives Descendant mode. -/
theorem c1_relationship_classification_witness :
    parseQuery "div \x7b\x7d" = [Part.withRules "div" Relationship.descendant ""] :=
  (c1_relationship_classification.2 "div " (by decide)).trans (by decide)

/-- C1 counterexample: on the selector text `"a\t"`, whose count of
trailing space characters is zero, the claim as written demands Filter
mode, but the source classifies the segment as Descendant because
`trimEnd` also removes the tab. -/
theorem c1_counterexample :
    parseQuery "a\t\x7b\x7d" = [Part.withRules "a" Relationship.descendant ""] ∧
    specTrailingSpaceCount "a\t" = 0 ∧
    specRelationshipSpace "a\t" = Relationship.filter ∧
    Relationship.descendant ≠ Relationship.filter := by
  exact ⟨by decide, by decide, by decide, by decide⟩

/-! ### Claim C7 -/

/-- C7, amended: the parser is total (the scan is a terminating function
of the input), and a query whose final rule block is unterminated yields
the segments already closed plus, for the unterminated block itself, a
rule segment whose rules text is empty: the accumulated rule content is
never flushed into the segment, but the segment itself is not dropped. -/
theorem c7_unterminated_block :
    (∀ (st : ParseState) (prev : Option Char) (t : List Char),
      st.inRules = true → st.currentSelector = "" →
      (∀ c ∈ t, c ≠ '\x7b' ∧ c ≠ '\x7d') →
      parseLoop st prev t = st.parts)
    ∧ (∀ (s : String) (t : List Char),
        (∀ c ∈ s.data, c ≠ '\x7b' ∧ c ≠ '\x7d' ∧ c ≠ '"' ∧ c ≠ '\'') →
        (∀ c ∈ t, c ≠ '\x7b' ∧ c ≠ '\x7d') →
        parseQuery (s ++ ⟨'\x7b' :: t⟩) =
          [Part.withRules (classifyRelationship s).2 (classifyRelationship s).1 ""]) := by
  constructor
  · exact fun st prev t => parseLoop_unterminated t st prev
  · intro s t hs ht
    show parseLoop initParseState none (s.data ++ '\x7b' :: t) = _
    rw [parseLoop_open s.data initParseState none t rfl rfl hs]
    rw [parseLoop_unterminated t _ (some '\x7b') rfl rfl ht]
    have hsel : initParseState.currentSelector ++ (⟨s.data⟩ : String) = s := rfl
    rw [hsel]
    simp [initParseState]

/-- C7 witness: an unterminated block produces one filter segment with
empty rules text. -/
theorem c7_unterminated_block_witness :
    parseQuery "div\x7bcolor:red" = [Part.withRules "div" Relationship.filter ""] :=
  (c7_unterminated_block.2 "div" "color:red".data (by decide) (by decide)).trans (by decide)

/-- C7 counterexample: the unterminated block of `"\x7bx"` is not
dropped — it parses to a wildcard filter segment with an empty rule
mapping, and evaluating the query returns the root's descendants, not the
result of the blockless query. -/
theorem c7_counterexample :
    parseQuery "\x7bx" = [Part.withRules "" Relationship.filter ""] ∧
    (querySelectorAllWithCssRules "\x7bx"
        (Node.node ⟨1, [], [], []⟩ [Node.node ⟨2, [], [], []⟩ []])).map nodeId = [2] ∧
    (querySelectorAllWithCssRules ""
        (Node.node ⟨1, [], [], []⟩ [Node.node ⟨2, [], [], []⟩ []])).map nodeId = [1] ∧
    ([2] : List Nat) ≠ [1] :=
  ⟨by decide, rfl, rfl, by decide⟩

/-! ### Claim C8 -/

/-- C8, amended: the empty query parses to zero segments, but evaluating
a zero-segment query returns the deduplicated current set, which is still
the seed `{root}`: findAll of the empty query returns `[root]` and
findFirst returns the root itself, for every root node. -/
theorem c8_empty_query (root : Node) :
    parseQuery "" = [] ∧
    querySelectorAllWithCssRules "" root = [root] ∧
    querySelectorWithCssRules "" root = some root := by
  refine ⟨rfl, ?_, ?_⟩
  · show dedupById [] [root] = [root]
    simp [dedupById]
  · show (dedupById [] [root]).head? = some root
    simp [dedupById]

/-- C8 counterexample: on a concrete root, findAll of the empty query is
the one-element list holding the root itself, not the empty sequence, and
findFirst is the root, not the not-found value. -/
theorem c8_counterexample :
    querySelectorAllWithCssRules "" (Node.node ⟨1, [], [], []⟩ []) =
      [Node.node ⟨1, [], [], []⟩ []] ∧
    querySelectorAllWithCssRules "" (Node.node ⟨1, [], [], []⟩ []) ≠ [] ∧
    querySelectorWithCssRules "" (Node.node ⟨1, [], [], []⟩ []) ≠ none := by
  have h1 : querySelectorAllWithCssRules "" (Node.node ⟨1, [], [], []⟩ []) =
      [Node.node ⟨1, [], [], []⟩ []] := rfl
  have h2 : querySelectorWithCssRules "" (Node.node ⟨1, [], [], []⟩ []) =
      some (Node.node ⟨1, [], [], []⟩ []) := rfl
  exact ⟨h1, by rw [h1]; simp, by rw [h2]; simp⟩

/-! ### Claim C3 -/

/-- C3: rule matching is true exactly when every rule pair matches after
normalization against the node's resolved value; an empty rule mapping
matches every node; a mismatching first pair makes the result false
whatever follows it. -/
theorem c3_rule_matching (n : Node) (rules : List (String × String)) :
    (elementMatchesRules n rules = true ↔
      ∀ p ∈ rules, normalizeCSSValue p.2 = normalizeCSSValue (resolveStyleValue n p.1))
    ∧ elementMatchesRules n ([] : List (String × String)) = true
    ∧ (∀ (property value : String) (rest : List (String × String)),
        normalizeCSSValue value ≠ normalizeCSSValue (resolveStyleValue n property) →
        elementMatchesRules n ((property, value) :: rest) = false) := by
  refine ⟨?_, rfl, ?_⟩
  · induction rules with
    | nil => simp [elementMatchesRules]
    | cons p rest ih =>
        obtain ⟨property, value⟩ := p
        by_cases h : normalizeCSSValue value =
            normalizeCSSValue (resolveStyleValue n property)
        · simp [elementMatchesRules, h, ih]
        · simp [elementMatchesRules, h]
  · intro property value rest h
    simp [elementMatchesRules, h]

/-- C3 witness: a node whose resolved color is red fails a blue rule. -/
theorem c3_rule_matching_witness :
    elementMatchesRules (Node.node ⟨1, [("color", "red")], [], []⟩ [])
      [("color", "blue")] = false :=
  (c3_rule_matching (Node.node ⟨1, [("color", "red")], [], []⟩ [])
    [("color", "blue")]).2.2 "color" "blue" [] (by decide)

/-! ### Claim C9 -/

/-- The property keys of the valid clauses of a list of split pieces. -/
def clauseKeys (pieces : List String) : List String :=
  ((((pieces.map jsTrim).filter (· ≠ "")).filterMap clauseKV).map Prod.fst)

/-- Writing a fresh key into the rules object appends it. -/
theorem insertAssoc_fresh {rules : List (String × String)} {k : String} (v : String)
    (h : k ∉ rules.map Prod.fst) : insertAssoc rules k v = rules ++ [(k, v)] := by
  induction rules with
  | nil => rfl
  | cons p rest ih =>
      simp only [List.map_cons, List.mem_cons] at h
      push_neg at h
      have hne : ¬ p.1 = k := fun hq => h.1 hq.symm
      simp [insertAssoc, hne, ih h.2]

/-- With pairwise distinct keys the clause fold never overwrites, so it
appends the valid clauses in order. -/
theorem foldl_applyClause_eq (lines : List String) :
    ∀ acc : List (String × String),
    ((acc ++ lines.filterMap clauseKV).map Prod.fst).Nodup →
    lines.foldl applyClause acc = acc ++ lines.filterMap clauseKV := by
  induction lines with
  | nil => simp
  | cons line rest ih =>
      intro acc hnd
      cases hkv : clauseKV line with
      | none =>
          rw [List.foldl_cons]
          show rest.foldl applyClause (applyClause acc line) = _
          rw [show applyClause acc line = acc by simp [applyClause, hkv]]
          rw [List.filterMap_cons_none hkv] at hnd ⊢
          exact ih acc hnd
      | some pv =>
          rw [show List.filterMap clauseKV (line :: rest) =
            pv :: List.filterMap clauseKV rest by
              simp [List.filterMap_cons, hkv]] at hnd ⊢
          have fresh : pv.1 ∉ acc.map Prod.fst := by
            intro hmem
            rw [List.map_append] at hnd
            have hdisj := List.disjoint_of_nodup_append hnd
            exact hdisj hmem (by simp)
          rw [List.foldl_cons]
          show rest.foldl applyClause (applyClause acc line) = _
          rw [show applyClause acc line = acc ++ [pv] by
            simp [applyClause, hkv, insertAssoc_fresh pv.2 fresh]]
          rw [show acc ++ pv :: rest.filterMap clauseKV =
            (acc ++ [pv]) ++ rest.filterMap clauseKV by simp]
          exact ih (acc ++ [pv]) (by simpa using hnd)

/-- Rule matching as a conjunction over the rule entries. -/
theorem elementMatchesRules_eq_all (n : Node) (rules : List (String × String)) :
    elementMatchesRules n rules =
      rules.all (fun p =>
        normalizeCSSValue p.2 == normalizeCSSValue (resolveStyleValue n p.1)) := by
  induction rules with
  | nil => rfl
  | cons p rest ih =>
      obtain ⟨property, value⟩ := p
      by_cases h : normalizeCSSValue value =
          normalizeCSSValue (resolveStyleValue n property)
      · simp [elementMatchesRules, h, ih]
      · simp [elementMatchesRules, h]

/-- C9, amended: reordering the `property: value;` clauses of one rule
block never changes whether a node matches, provided the clause property
names are pairwise distinct; with duplicated property names the later
clause wins, so reordering can change the outcome.  The first conjunct
ties the clause-list formulation to the textual `parseCSSRules`. -/
theorem c9_reorder_invariance :
    (∀ s : String, parseCSSRules s =
      parseCSSRulesFromLines ((splitOnChar ';' s.data).map (fun l => (⟨l⟩ : String))))
    ∧ (∀ (n : Node) (cs cs' : List String), cs.Perm cs' → (clauseKeys cs).Nodup →
        elementMatchesRules n (parseCSSRulesFromLines cs) =
          elementMatchesRules n (parseCSSRulesFromLines cs')) := by
  refine ⟨fun s => rfl, ?_⟩
  intro n cs cs' hperm hnodup
  have hlines : ((cs.map jsTrim).filter (· ≠ "")).Perm
      ((cs'.map jsTrim).filter (· ≠ "")) := (hperm.map jsTrim).filter _
  have hfm : (((cs.map jsTrim).filter (· ≠ "")).filterMap clauseKV).Perm
      (((cs'.map jsTrim).filter (· ≠ "")).filterMap clauseKV) := hlines.filterMap _
  have hnodup' : (clauseKeys cs').Nodup :=
    ((hfm.map Prod.fst).nodup_iff).mp hnodup
  have he : parseCSSRulesFromLines cs =
      ((cs.map jsTrim).filter (· ≠ "")).filterMap clauseKV := by
    have := foldl_applyClause_eq ((cs.map jsTrim).filter (· ≠ "")) []
      (by simpa [clauseKeys] using hnodup)
    simpa [parseCSSRulesFromLines] using this
  have he' : parseCSSRulesFromLines cs' =
      ((cs'.map jsTrim).filter (· ≠ "")).filterMap clauseKV := by
    have := foldl_applyClause_eq ((cs'.map jsTrim).filter (· ≠ "")) []
      (by simpa [clauseKeys] using hnodup')
    simpa [parseCSSRulesFromLines] using this
  rw [he, he', elementMatchesRules_eq_all, elementMatchesRules_eq_all]
  refine Bool.eq_iff_iff.mpr ?_
  simp only [List.all_eq_true]
  exact ⟨fun h p hp => h p (hfm.mem_iff.mpr hp), fun h p hp => h p (hfm.mem_iff.mp hp)⟩

/-- C9 witness: reordering two clauses with distinct property names does
not change the match outcome. -/
theorem c9_reorder_invariance_witness :
    elementMatchesRules (Node.node ⟨1, [("color", "red")], [], []⟩ [])
        (parseCSSRulesFromLines ["color:red", "display:flex"]) =
      elementMatchesRules (Node.node ⟨1, [("color", "red")], [], []⟩ [])
        (parseCSSRulesFromLines ["display:flex", "color:red"]) :=
  c9_reorder_invariance.2 (Node.node ⟨1, [("color", "red")], [], []⟩ [])
    ["color:red", "display:flex"] ["display:flex", "color:red"]
    (List.Perm.swap "display:flex" "color:red" []) (by decide)

/-- C9 counterexample: with a duplicated property name, reordering the
clauses of one block changes the match outcome, because the later clause
overwrites the earlier one. -/
theorem c9_counterexample :
    ((splitOnChar ';' "color:red;color:blue".data).map (fun l => (⟨l⟩ : String))).Perm
      ((splitOnChar ';' "color:blue;color:red".data).map (fun l => (⟨l⟩ : String))) ∧
    elementMatchesRules (Node.node ⟨1, [("color", "red")], [], []⟩ [])
        (parseCSSRules "color:red;color:blue") = false ∧
    elementMatchesRules (Node.node ⟨1, [("color", "red")], [], []⟩ [])
        (parseCSSRules "color:blue;color:red") = true := by
  refine ⟨?_, by decide, by decide⟩
  show (["color:red", "color:blue"] : List String).Perm ["color:blue", "color:red"]
  exact List.Perm.swap "color:blue" "color:red" []

/-! ### Claim C4 -/

/-- The wildcard query returns every strict descendant. -/
theorem querySelectorAll_wildcard (n : Node) :
    querySelectorAllN n "*" = descendants n := by
  unfold querySelectorAllN
  refine List.filter_eq_self.mpr ?_
  intro a _
  simp [nodeMatches]

/-- C4: in Descendant mode, a node is output exactly when it is a
rules-satisfying descendant of some selector match under some current
node (of the current node itself when the selector is empty); the
matches themselves are not kept unless re-derived as descendants; the
previously recorded filter selectors play no role and are not changed. -/
theorem c4_descendant_mode (prev : List String) (sel rulesText : String)
    (els : List Node) :
    ((execStep (els, prev) (Part.withRules sel Relationship.descendant rulesText)).2
      = prev)
    ∧ (∀ prev' : List String,
        (execStep (els, prev) (Part.withRules sel Relationship.descendant rulesText)).1 =
        (execStep (els, prev') (Part.withRules sel Relationship.descendant rulesText)).1)
    ∧ (sel ≠ "" → ∀ x : Node,
        (x ∈ (execStep (els, prev) (Part.withRules sel Relationship.descendant rulesText)).1 ↔
          ∃ N ∈ els, ∃ m ∈ querySelectorAllN N sel, x ∈ descendants m ∧
            elementMatchesRules x (parseCSSRules rulesText) = true))
    ∧ (sel = "" → ∀ x : Node,
        (x ∈ (execStep (els, prev) (Part.withRules sel Relationship.descendant rulesText)).1 ↔
          ∃ N ∈ els, x ∈ descendants N ∧
            elementMatchesRules x (parseCSSRules rulesText) = true)) := by
  refine ⟨rfl, fun prev' => rfl, ?_, ?_⟩
  · intro hsel x
    simp only [execStep, if_neg hsel, List.mem_flatMap, querySelectorAll_wildcard,
      List.mem_filter]
  · intro hsel x
    subst hsel
    simp [execStep, List.mem_flatMap, querySelectorAll_wildcard, List.mem_filter]

/-- C4 witness: with an empty selector, a rules-satisfying descendant of a
current node is output. -/
theorem c4_descendant_mode_witness :
    Node.node ⟨2, [("color", "red")], [], []⟩ [] ∈
      (execStep ([Node.node ⟨1, [], [], []⟩ [Node.node ⟨2, [("color", "red")], [], []⟩ []]],
        []) (Part.withRules "" Relationship.descendant "color:red")).1 := by
  refine ((c4_descendant_mode [] "" "color:red"
    [Node.node ⟨1, [], [], []⟩ [Node.node ⟨2, [("color", "red")], [], []⟩ []]]).2.2.2
    rfl _).mpr ?_
  refine ⟨Node.node ⟨1, [], [], []⟩ [Node.node ⟨2, [("color", "red")], [], []⟩ []],
    List.mem_singleton.mpr rfl, ?_, by decide⟩
  show _ ∈ [Node.node ⟨2, [("color", "red")], [], []⟩ []]
  exact List.mem_singleton.mpr rfl

/-! ### Claim C5 -/

/-- The parent of the Child-mode example tree. -/
def c5G : Node := Node.node ⟨3, [("color", "red")], [], []⟩ []

/-- The child of the Child-mode example tree. -/
def c5C : Node := Node.node ⟨2, [("color", "red")], [], []⟩ [c5G]

/-- The grandchild of the Child-mode example tree. -/
def c5P : Node := Node.node ⟨1, [], [], []⟩ [c5C]

/-- C5: in Child mode the search roots are the selector matches under
each current node (the node itself when the selector is empty), and the
output is exactly the rules-satisfying immediate children of those roots;
in the concrete parent/child/grandchild tree where both child and
grandchild satisfy the rules, the query returns the child but not the
grandchild. -/
theorem c5_child_mode (prev : List String) (sel rulesText : String) (els : List Node) :
    ((execStep (els, prev) (Part.withRules sel Relationship.child rulesText)).2 = prev)
    ∧ (∀ x : Node,
        x ∈ (execStep (els, prev) (Part.withRules sel Relationship.child rulesText)).1 ↔
          ∃ N ∈ els, ∃ r ∈ (if sel = "" then [N] else querySelectorAllN N sel),
            x ∈ children r ∧ elementMatchesRules x (parseCSSRules rulesText) = true)
    ∧ (querySelectorAllWithCssRules ">\x7bcolor:red\x7d" c5P = [c5C]
        ∧ elementMatchesRules c5C (parseCSSRules "color:red") = true
        ∧ elementMatchesRules c5G (parseCSSRules "color:red") = true
        ∧ c5G ∉ querySelectorAllWithCssRules ">\x7bcolor:red\x7d" c5P) := by
  refine ⟨rfl, ?_, rfl, by decide, by decide, ?_⟩
  · intro x
    simp only [execStep, List.mem_flatMap, List.mem_filter]
  · intro hmem
    rw [show querySelectorAllWithCssRules ">\x7bcolor:red\x7d" c5P = [c5C] from rfl] at hmem
    rw [List.mem_singleton] at hmem
    exact absurd (congrArg nodeId hmem) (by decide)

/-! ### Claim C6 -/

/-- Every node surviving deduplication has an identity outside the seen
set. -/
theorem dedupById_not_mem_seen (l : List Node) :
    ∀ (seen : List Nat), ∀ x ∈ dedupById seen l, nodeId x ∉ seen := by
  induction l with
  | nil => intro seen x hx; simp [dedupById] at hx
  | cons y ys ih =>
      intro seen x hx
      by_cases hid : nodeId y ∈ seen
      · rw [dedupById, if_pos hid] at hx
        exact ih seen x hx
      · rw [dedupById, if_neg hid] at hx
        rcases List.mem_cons.mp hx with h | h
        · subst h; exact hid
        · have := ih (nodeId y :: seen) x h
          exact fun hc => this (List.mem_cons_of_mem _ hc)

/-- Deduplication output has pairwise distinct identities. -/
theorem dedupById_nodup (l : List Node) :
    ∀ seen : List Nat, ((dedupById seen l).map nodeId).Nodup := by
  induction l with
  | nil => intro seen; simp [dedupById]
  | cons y ys ih =>
      intro seen
      by_cases hid : nodeId y ∈ seen
      · rw [dedupById, if_pos hid]; exact ih seen
      · rw [dedupById, if_neg hid]
        refine List.nodup_cons.mpr ⟨?_, ih _⟩
        intro hmem
        obtain ⟨x, hx, hxid⟩ := List.mem_map.mp hmem
        have := dedupById_not_mem_seen ys (nodeId y :: seen) x hx
        exact this (by simp [hxid])

/-- Deduplication preserves the order of the kept elements. -/
theorem dedupById_sublist (l : List Node) :
    ∀ seen : List Nat, (dedupById seen l).Sublist l := by
  induction l with
  | nil => intro seen; simp [dedupById]
  | cons y ys ih =>
      intro seen
      by_cases hid : nodeId y ∈ seen
      · rw [dedupById, if_pos hid]; exact (ih seen).cons y
      · rw [dedupById, if_neg hid]; exact (ih _).cons₂ y

/-- Every kept element is the first element of the input carrying its
identity. -/
theorem dedupById_find_first (l : List Node) :
    ∀ seen : List Nat, ∀ x ∈ dedupById seen l,
    l.find? (fun y => nodeId y == nodeId x) = some x := by
  induction l with
  | nil => intro seen x hx; simp [dedupById] at hx
  | cons y ys ih =>
      intro seen x hx
      by_cases hid : nodeId y ∈ seen
      · rw [dedupById, if_pos hid] at hx
        have hne : nodeId x ≠ nodeId y := by
          intro he
          exact dedupById_not_mem_seen ys seen x hx (he ▸ hid)
        rw [List.find?_cons_of_neg _ (by simpa using fun hc => hne hc.symm)]
        exact ih seen x hx
      · rw [dedupById, if_neg hid] at hx
        rcases List.mem_cons.mp hx with h | h
        · subst h
          rw [List.find?_cons_of_pos _ (by simp)]
        · have hx' := dedupById_not_mem_seen ys (nodeId y :: seen) x h
          have hne : nodeId x ≠ nodeId y := fun he => hx' (by simp [he])
          rw [List.find?_cons_of_neg _ (by simpa using fun hc => hne hc.symm)]
          exact ih _ x h

/-- C6: the final result is the raw element sequence deduplicated by node
identity keeping the first occurrence in order, findAll never returns two
entries with the same identity, and findFirst returns the head of the
deduplicated sequence, or the not-found value when it is empty. -/
theorem c6_dedup_and_return (query : String) (root : Node) :
    ((querySelectorAllWithCssRules query root).map nodeId).Nodup
    ∧ (querySelectorAllWithCssRules query root).Sublist (executeQueryRaw query root)
    ∧ (∀ x ∈ querySelectorAllWithCssRules query root,
        (executeQueryRaw query root).find? (fun y => nodeId y == nodeId x) = some x)
    ∧ querySelectorWithCssRules query root = (querySelectorAllWithCssRules query root).head?
    ∧ (querySelectorAllWithCssRules query root = [] →
        querySelectorWithCssRules query root = none) := by
  refine ⟨dedupById_nodup _ _, dedupById_sublist _ _,
    fun x hx => dedupById_find_first _ _ x hx, rfl, ?_⟩
  intro hempty
  show (executeQueryElems query root).head? = none
  rw [show executeQueryElems query root = querySelectorAllWithCssRules query root from rfl,
    hempty]
  rfl

/-- C6 witness: on the empty query the seed root is its own first
occurrence in the raw result sequence. -/
theorem c6_dedup_and_return_witness :
    (executeQueryRaw "" (Node.node ⟨7, [], [], []⟩ [])).find?
      (fun y => nodeId y == nodeId (Node.node ⟨7, [], [], []⟩ [])) =
      some (Node.node ⟨7, [], [], []⟩ []) := by
  refine (c6_dedup_and_return "" (Node.node ⟨7, [], [], []⟩ [])).2.2.1
    (Node.node ⟨7, [], [], []⟩ []) ?_
  rw [show querySelectorAllWithCssRules "" (Node.node ⟨7, [], [], []⟩ []) =
    [Node.node ⟨7, [], [], []⟩ []] from rfl]
  exact List.mem_singleton.mpr rfl

/-! ### Claim C2: tree machinery -/

mutual

/-- The identities of every node of a subtree. -/
def idsOf : Node → List Nat
  | .node d cs => d.id :: idsForest cs

/-- The identities of every node of a forest. -/
def idsForest : List Node → List Nat
  | [] => []
  | c :: cs => idsOf c ++ idsForest cs

end

/-- A well-formed tree: distinct nodes carry distinct identities, as
distinct DOM element objects do. -/
def wfNode (n : Node) : Prop := (idsOf n).Nodup

mutual

/-- A strict descendant is structurally smaller. -/
theorem size_desc (n : Node) (x : Node) (h : x ∈ descendants n) :
    sizeOf x < sizeOf n := by
  cases n with
  | node d cs =>
      have h1 := size_descList cs x (by simpa [descendants] using h)
      have h2 : sizeOf (Node.node d cs) = 1 + sizeOf d + sizeOf cs := by simp
      omega

/-- A node of a forest is structurally smaller than the forest. -/
theorem size_descList (cs : List Node) (x : Node) (h : x ∈ descendantsList cs) :
    sizeOf x < sizeOf cs := by
  cases cs with
  | nil => simp [descendantsList] at h
  | cons c cs' =>
      have hspec : sizeOf (c :: cs') = 1 + sizeOf c + sizeOf cs' := by simp
      have h' : x = c ∨ x ∈ descendants c ∨ x ∈ descendantsList cs' := by
        have := h
        simp only [descendantsList, List.mem_cons, List.mem_append] at this
        tauto
      rcases h' with h' | h' | h'
      · subst h'; omega
      · have := size_desc c x h'; omega
      · have := size_descList cs' x h'; omega

end

mutual

/-- A strict descendant's identity occurs among the subtree identities. -/
theorem nodeId_mem_idsOf (n : Node) (x : Node) (h : x ∈ descendants n) :
    nodeId x ∈ idsOf n := by
  cases n with
  | node d cs =>
      have := nodeId_mem_idsForest cs x (by simpa [descendants] using h)
      simp [idsOf, this]

/-- A forest node's identity occurs among the forest identities. -/
theorem nodeId_mem_idsForest (cs : List Node) (x : Node)
    (h : x ∈ descendantsList cs) : nodeId x ∈ idsForest cs := by
  cases cs with
  | nil => simp [descendantsList] at h
  | cons c cs' =>
      have h' : x = c ∨ x ∈ descendants c ∨ x ∈ descendantsList cs' := by
        have := h
        simp only [descendantsList, List.mem_cons, List.mem_append] at this
        tauto
      rcases h' with h' | h' | h'
      · subst h'
        cases x with
        | node d cs'' => simp [idsForest, idsOf, nodeId, ndata]
      · have := nodeId_mem_idsOf c x h'
        simp [idsForest, this]
      · have := nodeId_mem_idsForest cs' x h'
        simp [idsForest, this]

end

mutual

/-- Descendants of a descendant are descendants. -/
theorem desc_trans (n a x : Node) (ha : a ∈ descendants n)
    (hx : x ∈ descendants a) : x ∈ descendants n := by
  cases n with
  | node d cs =>
      have := desc_trans_list cs a x (by simpa [descendants] using ha) hx
      simpa [descendants] using this

/-- Descendants of a forest node are forest nodes. -/
theorem desc_trans_list (cs : List Node) (a x : Node)
    (ha : a ∈ descendantsList cs) (hx : x ∈ descendants a) :
    x ∈ descendantsList cs := by
  cases cs with
  | nil => simp [descendantsList] at ha
  | cons c cs' =>
      have h' : a = c ∨ a ∈ descendants c ∨ a ∈ descendantsList cs' := by
        have := ha
        simp only [descendantsList, List.mem_cons, List.mem_append] at this
        tauto
      simp only [descendantsList, List.mem_cons, List.mem_append]
      rcases h' with h' | h' | h'
      · subst h'; tauto
      · have := desc_trans c a x h' hx; tauto
      · have := desc_trans_list cs' a x h' hx; tauto

end

mutual

/-- The first components of the subtree walk are the subtree nodes. -/
theorem subtreeWithAnc_map_fst (c : Node) (anc : List Node) :
    (subtreeWithAnc c anc).map Prod.fst = c :: descendants c := by
  cases c with
  | node d cs =>
      simp [subtreeWithAnc, forestWithAnc_map_fst cs, descendants]

/-- The first components of the forest walk are the forest nodes. -/
theorem forestWithAnc_map_fst (cs : List Node) (anc : List Node) :
    (forestWithAnc cs anc).map Prod.fst = descendantsList cs := by
  cases cs with
  | nil => simp [forestWithAnc, descendantsList]
  | cons c cs' =>
      simp [forestWithAnc, subtreeWithAnc_map_fst c, forestWithAnc_map_fst cs',
        descendantsList]

end

/-- A pair of the forest walk has a forest node first component. -/
theorem mem_descList_of_mem_forestWithAnc {cs anc : List Node} {m : Node}
    {p : List Node} (h : (m, p) ∈ forestWithAnc cs anc) : m ∈ descendantsList cs := by
  have : m ∈ (forestWithAnc cs anc).map Prod.fst := List.mem_map.mpr ⟨(m, p), h, rfl⟩
  rwa [forestWithAnc_map_fst] at this

mutual

/-- The walk only extends the initial ancestor chain on the left. -/
theorem subtreeWithAnc_suffix (c : Node) (anc : List Node) (m : Node)
    (p : List Node) (h : (m, p) ∈ subtreeWithAnc c anc) : anc.IsSuffix p := by
  cases c with
  | node d cs =>
      rcases (show (m = Node.node d cs ∧ p = anc) ∨
          (m, p) ∈ forestWithAnc cs (Node.node d cs :: anc) by
          simpa [subtreeWithAnc] using h) with ⟨h1, h2⟩ | h'
      · exact h2 ▸ List.suffix_refl anc
      · have := forestWithAnc_suffix cs (Node.node d cs :: anc) m p h'
        exact (List.suffix_cons (Node.node d cs) anc).trans this

/-- The forest walk only extends the initial ancestor chain on the left. -/
theorem forestWithAnc_suffix (cs : List Node) (anc : List Node) (m : Node)
    (p : List Node) (h : (m, p) ∈ forestWithAnc cs anc) : anc.IsSuffix p := by
  cases cs with
  | nil => simp [forestWithAnc] at h
  | cons c cs' =>
      rcases List.mem_append.mp (by simpa [forestWithAnc] using h) with h' | h'
      · exact subtreeWithAnc_suffix c anc m p h'
      · exact forestWithAnc_suffix cs' anc m p h'

end

mutual

/-- Soundness of the ancestor chain: every node of the chain of `m` is an
ancestor of `m` within the walked subtree, unless it came from the
initial chain. -/
theorem subtree_anc_sound (c : Node) (anc0 : List Node) (m : Node)
    (p : List Node) (a : Node) (hmem : (m, p) ∈ subtreeWithAnc c anc0)
    (ha : a ∈ p) : (a ∈ c :: descendants c ∧ m ∈ descendants a) ∨ a ∈ anc0 := by
  cases c with
  | node d cs =>
      rcases (show (m = Node.node d cs ∧ p = anc0) ∨
          (m, p) ∈ forestWithAnc cs (Node.node d cs :: anc0) by
          simpa [subtreeWithAnc] using hmem) with ⟨h1, h2⟩ | h'
      · subst h2
        exact Or.inr ha
      · rcases forest_anc_sound cs (Node.node d cs :: anc0) m p a h' ha with
          ⟨haf, hmf⟩ | hin
        · refine Or.inl ⟨?_, hmf⟩
          simp only [descendants, List.mem_cons]
          tauto
        · rcases List.mem_cons.mp hin with h'' | h''
          · subst h''
            refine Or.inl ⟨List.mem_cons_self _ _, ?_⟩
            show m ∈ descendants (Node.node d cs)
            simpa [descendants] using mem_descList_of_mem_forestWithAnc h'
          · exact Or.inr h''

/-- Soundness of the ancestor chain over a forest. -/
theorem forest_anc_sound (cs : List Node) (anc0 : List Node) (m : Node)
    (p : List Node) (a : Node) (hmem : (m, p) ∈ forestWithAnc cs anc0)
    (ha : a ∈ p) : (a ∈ descendantsList cs ∧ m ∈ descendants a) ∨ a ∈ anc0 := by
  cases cs with
  | nil => simp [forestWithAnc] at hmem
  | cons c cs' =>
      rcases List.mem_append.mp (by simpa [forestWithAnc] using hmem) with h' | h'
      · rcases subtree_anc_sound c anc0 m p a h' ha with ⟨haf, hmf⟩ | hin
        · refine Or.inl ⟨?_, hmf⟩
          simp only [descendantsList, List.mem_cons, List.mem_append]
          rcases List.mem_cons.mp haf with h'' | h'' <;> tauto
        · exact Or.inr hin
      · rcases forest_anc_sound cs' anc0 m p a h' ha with ⟨haf, hmf⟩ | hin
        · refine Or.inl ⟨?_, hmf⟩
          simp only [descendantsList, List.mem_cons, List.mem_append]
          tauto
        · exact Or.inr hin

end

mutual

/-- Completeness of the ancestor chain: in a subtree with pairwise
distinct identities, every ancestor of `m` within the subtree occurs in
the chain recorded for `m`. -/
theorem subtree_anc_complete (c : Node) (anc0 : List Node) (m : Node)
    (p : List Node) (a : Node) (hnd : (idsOf c).Nodup)
    (hmem : (m, p) ∈ subtreeWithAnc c anc0) (ha : a ∈ c :: descendants c)
    (hma : m ∈ descendants a) : a ∈ p := by
  cases c with
  | node d cs =>
      rcases (show (m = Node.node d cs ∧ p = anc0) ∨
          (m, p) ∈ forestWithAnc cs (Node.node d cs :: anc0) by
          simpa [subtreeWithAnc] using hmem) with ⟨h1, h2⟩ | h'
      · rcases List.mem_cons.mp ha with h'' | h''
        · have hlt : sizeOf m < sizeOf a := size_desc a m hma
          rw [h1, h''] at hlt
          omega
        · have s1 : sizeOf m < sizeOf a := size_desc a m hma
          have s2 : sizeOf a < sizeOf (Node.node d cs) := size_desc (Node.node d cs) a h''
          rw [h1] at s1
          omega
      · rcases List.mem_cons.mp ha with h'' | h''
        · have hsuf := forestWithAnc_suffix cs (Node.node d cs :: anc0) m p h'
          exact hsuf.subset (by rw [h'']; exact List.mem_cons_self _ _)
        · have hnd' : (idsForest cs).Nodup := (List.nodup_cons.mp hnd).2
          exact forest_anc_complete cs (Node.node d cs :: anc0) m p a hnd' h'
            (by simpa [descendants] using h'') hma

/-- Completeness of the ancestor chain over a forest. -/
theorem forest_anc_complete (cs : List Node) (anc0 : List Node) (m : Node)
    (p : List Node) (a : Node) (hnd : (idsForest cs).Nodup)
    (hmem : (m, p) ∈ forestWithAnc cs anc0) (ha : a ∈ descendantsList cs)
    (hma : m ∈ descendants a) : a ∈ p := by
  cases cs with
  | nil => simp [forestWithAnc] at hmem
  | cons c cs' =>
      have hnd' : (idsOf c ++ idsForest cs').Nodup := by simpa [idsForest] using hnd
      have hndc : (idsOf c).Nodup := (List.nodup_append.mp hnd').1
      have hndf : (idsForest cs').Nodup := (List.nodup_append.mp hnd').2.1
      have hdisj : (idsOf c).Disjoint (idsForest cs') :=
        List.disjoint_of_nodup_append hnd'
      have ha' : a = c ∨ a ∈ descendants c ∨ a ∈ descendantsList cs' := by
        have := ha
        simp only [descendantsList, List.mem_cons, List.mem_append] at this
        tauto
      rcases List.mem_append.mp (by simpa [forestWithAnc] using hmem) with h' | h'
      · have hmc : m ∈ c :: descendants c := by
          have : m ∈ (subtreeWithAnc c anc0).map Prod.fst :=
            List.mem_map.mpr ⟨(m, p), h', rfl⟩
          rwa [subtreeWithAnc_map_fst] at this
        rcases ha' with h'' | h'' | h''
        · exact subtree_anc_complete c anc0 m p a hndc h' (h'' ▸ List.mem_cons_self _ _) hma
        · exact subtree_anc_complete c anc0 m p a hndc h'
            (List.mem_cons_of_mem _ h'') hma
        · exfalso
          have hm1 : nodeId m ∈ idsOf c := by
            rcases List.mem_cons.mp hmc with he | he
            · subst he
              cases m with
              | node dm csm => simp [idsOf, nodeId, ndata]
            · exact nodeId_mem_idsOf c m he
          have hm2 : nodeId m ∈ idsForest cs' :=
            nodeId_mem_idsForest cs' m (desc_trans_list cs' a m h'' hma)
          exact hdisj hm1 hm2
      · have hmf : m ∈ descendantsList cs' := mem_descList_of_mem_forestWithAnc h'
        rcases ha' with h'' | h'' | h''
        · exfalso
          have hm1 : nodeId m ∈ idsOf c := h'' ▸ nodeId_mem_idsOf c m (h'' ▸ hma)
          exact hdisj hm1 (nodeId_mem_idsForest cs' m hmf)
        · exfalso
          have hm1 : nodeId m ∈ idsOf c :=
            nodeId_mem_idsOf c m (desc_trans c a m h'' hma)
          exact hdisj hm1 (nodeId_mem_idsForest cs' m hmf)
        · exact forest_anc_complete cs' anc0 m p a hndf h' h'' hma

end

/-- C2: in Filter mode the selector list recorded for later segments is
extended with this segment's selector only when it is non-empty, and only
after the candidates are processed with the previous list; a candidate of
the segment's selector (wildcard when empty) is kept exactly when it is
not excluded and satisfies the rules; and on a well-formed tree the
exclusion test holds exactly when some strict ancestor of the candidate,
strictly below the current node, matches a previously recorded filter
selector. -/
theorem c2_filter_mode (prev : List String) (sel rulesText : String) (els : List Node) :
    ((execStep (els, prev) (Part.withRules sel Relationship.filter rulesText)).2 =
      if sel = "" then prev else prev ++ [sel])
    ∧ (∀ x : Node,
        x ∈ (execStep (els, prev) (Part.withRules sel Relationship.filter rulesText)).1 ↔
          ∃ N ∈ els, ∃ anc, (x, anc) ∈ descendantsWithAnc N ∧
            nodeMatches x (if sel = "" then "*" else sel) = true ∧
            excludedBy prev anc = false ∧
            elementMatchesRules x (parseCSSRules rulesText) = true)
    ∧ (∀ N : Node, wfNode N → ∀ (m : Node) (anc : List Node),
        (m, anc) ∈ descendantsWithAnc N →
        (excludedBy prev anc = true ↔
          ∃ a, a ∈ descendants N ∧ m ∈ descendants a ∧
            ∃ s ∈ prev, nodeMatches a s = true)) := by
  refine ⟨rfl, ?_, ?_⟩
  · intro x
    simp only [execStep, List.mem_flatMap, List.mem_filterMap, List.mem_filter]
    constructor
    · rintro ⟨N, hN, ⟨xm, anc⟩, ⟨hmem, hmatch⟩, hif⟩
      by_cases hcond : excludedBy prev anc = false ∧
          elementMatchesRules xm (parseCSSRules rulesText) = true
      · rw [if_pos hcond] at hif
        injection hif with hx
        subst hx
        exact ⟨N, hN, anc, hmem, hmatch, hcond.1, hcond.2⟩
      · rw [if_neg hcond] at hif
        exact absurd hif (by simp)
    · rintro ⟨N, hN, anc, hmem, hmatch, hexcl, hrules⟩
      exact ⟨N, hN, ⟨(x, anc), ⟨hmem, hmatch⟩, by rw [if_pos ⟨hexcl, hrules⟩]⟩⟩
  · intro N hwf m anc hmem
    cases N with
    | node d cs =>
        have hmem' : (m, anc) ∈ forestWithAnc cs [] := by
          simpa [descendantsWithAnc, children] using hmem
        have hnd : (idsForest cs).Nodup := by
          have h0 : (NodeData.id d :: idsForest cs).Nodup := by
            simpa [wfNode, idsOf] using hwf
          exact (List.nodup_cons.mp h0).2
        constructor
        · intro hex
          unfold excludedBy at hex
          by_cases hpe : prev.isEmpty
          · rw [if_pos hpe] at hex
            exact absurd hex (by simp)
          · rw [if_neg hpe] at hex
            obtain ⟨a, ha_anc, hinner⟩ := List.any_eq_true.mp hex
            obtain ⟨s, hs, hmatch⟩ := List.any_eq_true.mp hinner
            rcases forest_anc_sound cs [] m anc a hmem' ha_anc with ⟨haf, hmf⟩ | hin
            · exact ⟨a, by simpa [descendants] using haf, hmf, s, hs, hmatch⟩
            · exact absurd hin (List.not_mem_nil a)
        · rintro ⟨a, haN, hma, s, hs, hmatch⟩
          have ha_anc : a ∈ anc := forest_anc_complete cs [] m anc a hnd hmem'
            (by simpa [descendants] using haN) hma
          unfold excludedBy
          have hpe : prev.isEmpty = false := by
            cases prev with
            | nil => exact absurd hs (List.not_mem_nil s)
            | cons q qs => rfl
          rw [hpe]
          simp only [Bool.false_eq_true, if_false]
          exact List.any_eq_true.mpr
            ⟨a, ha_anc, List.any_eq_true.mpr ⟨s, hs, hmatch⟩⟩

/-- The grandchild of the Filter-mode exclusion example tree. -/
def c2M : Node := Node.node ⟨3, [], [], []⟩ []

/-- The middle node of the Filter-mode exclusion example tree: it matches
the previously recorded filter selector `.x`. -/
def c2A : Node := Node.node ⟨2, [], [], [".x"]⟩ [c2M]

/-- The root of the Filter-mode exclusion example tree. -/
def c2N : Node := Node.node ⟨1, [], [], []⟩ [c2A]

/-- C2 witness: on the concrete tree the excluded grandchild really has a
strict ancestor below the root matching the recorded selector. -/
theorem c2_filter_mode_witness :
    ∃ a, a ∈ descendants c2N ∧ c2M ∈ descendants a ∧
      ∃ s ∈ [".x"], nodeMatches a s = true := by
  refine ((c2_filter_mode [".x"] "" "" []).2.2 c2N
    (show (idsOf c2N).Nodup by decide) c2M [c2A] ?_).mp ?_
  · rw [show descendantsWithAnc c2N = [(c2A, []), (c2M, [c2A])] from rfl]
    exact List.mem_cons_of_mem _ (List.mem_singleton.mpr rfl)
  · decide

/-! ### Claim C10: hexadecimal color inputs -/

/-- Two characters with the same code point are equal. -/
theorem char_eq_of_toNat_eq {c w : Char} (h : c.toNat = w.toNat) : c = w :=
  Char.ext (UInt32.ext h)

/-- The hexadecimal digit characters, either case. -/
def hexDigitChars : List Char :=
  ['A', 'B', 'C', 'D', 'E', 'F',
   '0', '1', '2', '3', '4', '5', '6', '7', '8', '9',
   'f', 'e', 'd', 'c', 'b', 'a']

/-- A character with a hexadecimal digit value is one of the 22
hexadecimal digit characters. -/
theorem hexDigit_enum {c : Char} (h : (hexDigitVal? c).isSome = true) :
    c ∈ hexDigitChars := by
  unfold hexDigitVal? at h
  split_ifs at h with h1 h2 h3
  · obtain ⟨ha, hb⟩ := h1
    have ha' : ('0').toNat ≤ c.toNat := Char.le_def.mp ha
    have hb' : c.toNat ≤ ('9').toNat := Char.le_def.mp hb
    have hr : 48 ≤ c.toNat ∧ c.toNat ≤ 57 := ⟨ha', hb'⟩
    have hd : c.toNat = 48 ∨ c.toNat = 49 ∨ c.toNat = 50 ∨ c.toNat = 51 ∨
        c.toNat = 52 ∨ c.toNat = 53 ∨ c.toNat = 54 ∨ c.toNat = 55 ∨
        c.toNat = 56 ∨ c.toNat = 57 := by omega
    rcases hd with h | h | h | h | h | h | h | h | h | h
    · rw [show c = '0' from char_eq_of_toNat_eq (by rw [h]; rfl)]; decide
    · rw [show c = '1' from char_eq_of_toNat_eq (by rw [h]; rfl)]; decide
    · rw [show c = '2' from char_eq_of_toNat_eq (by rw [h]; rfl)]; decide
    · rw [show c = '3' from char_eq_of_toNat_eq (by rw [h]; rfl)]; decide
    · rw [show c = '4' from char_eq_of_toNat_eq (by rw [h]; rfl)]; decide
    · rw [show c = '5' from char_eq_of_toNat_eq (by rw [h]; rfl)]; decide
    · rw [show c = '6' from char_eq_of_toNat_eq (by rw [h]; rfl)]; decide
    · rw [show c = '7' from char_eq_of_toNat_eq (by rw [h]; rfl)]; decide
    · rw [show c = '8' from char_eq_of_toNat_eq (by rw [h]; rfl)]; decide
    · rw [show c = '9' from char_eq_of_toNat_eq (by rw [h]; rfl)]; decide
  · obtain ⟨ha, hb⟩ := h2
    have ha' : ('a').toNat ≤ c.toNat := Char.le_def.mp ha
    have hb' : c.toNat ≤ ('f').toNat := Char.le_def.mp hb
    have hr : 97 ≤ c.toNat ∧ c.toNat ≤ 102 := ⟨ha', hb'⟩
    have hd : c.toNat = 97 ∨ c.toNat = 98 ∨ c.toNat = 99 ∨ c.toNat = 100 ∨
        c.toNat = 101 ∨ c.toNat = 102 := by omega
    rcases hd with h | h | h | h | h | h
    · rw [show c = 'a' from char_eq_of_toNat_eq (by rw [h]; rfl)]; decide
    · rw [show c = 'b' from char_eq_of_toNat_eq (by rw [h]; rfl)]; decide
    · rw [show c = 'c' from char_eq_of_toNat_eq (by rw [h]; rfl)]; decide
    · rw [show c = 'd' from char_eq_of_toNat_eq (by rw [h]; rfl)]; decide
    · rw [show c = 'e' from char_eq_of_toNat_eq (by rw [h]; rfl)]; decide
    · rw [show c = 'f' from char_eq_of_toNat_eq (by rw [h]; rfl)]; decide
  · obtain ⟨ha, hb⟩ := h3
    have ha' : ('A').toNat ≤ c.toNat := Char.le_def.mp ha
    have hb' : c.toNat ≤ ('F').toNat := Char.le_def.mp hb
    have hr : 65 ≤ c.toNat ∧ c.toNat ≤ 70 := ⟨ha', hb'⟩
    have hd : c.toNat = 65 ∨ c.toNat = 66 ∨ c.toNat = 67 ∨ c.toNat = 68 ∨
        c.toNat = 69 ∨ c.toNat = 70 := by omega
    rcases hd with h | h | h | h | h | h
    · rw [show c = 'A' from char_eq_of_toNat_eq (by rw [h]; rfl)]; decide
    · rw [show c = 'B' from char_eq_of_toNat_eq (by rw [h]; rfl)]; decide
    · rw [show c = 'C' from char_eq_of_toNat_eq (by rw [h]; rfl)]; decide
    · rw [show c = 'D' from char_eq_of_toNat_eq (by rw [h]; rfl)]; decide
    · rw [show c = 'E' from char_eq_of_toNat_eq (by rw [h]; rfl)]; decide
    · rw [show c = 'F' from char_eq_of_toNat_eq (by rw [h]; rfl)]; decide
  · simp at h

/-- The digit value used in the statement of claim C10. -/
def specHexVal (c : Char) : Nat := (hexDigitVal? c).getD 0

/-- The character facts about a hexadecimal digit that the normalization
pipeline relies on: it is not whitespace, lowercasing preserves its digit
value, and its lowercase form is not whitespace, not a sign, not an `x`,
and still a hexadecimal digit of value at most 15. -/
theorem hexDigit_char_facts {c : Char} (h : (hexDigitVal? c).isSome = true) :
    jsWhitespace c = false ∧
    hexDigitVal? (Char.toLower c) = hexDigitVal? c ∧
    jsWhitespace (Char.toLower c) = false ∧
    Char.toLower c ≠ '-' ∧ Char.toLower c ≠ '+' ∧
    Char.toLower c ≠ 'x' ∧ Char.toLower c ≠ 'X' ∧
    (hexDigitVal? (Char.toLower c)).isSome = true ∧
    specHexVal c ≤ 15 := by
  have hm := hexDigit_enum h
  fin_cases hm <;> exact (by decide)

/-- The lowercase hexadecimal digit characters. -/
def lowerHexChars : List Char :=
  ['f', 'e', 'd', 'c', 'b', 'a',
   '0', '1', '2', '3', '4', '5', '6', '7', '8', '9']

/-- Lowercasing a hexadecimal digit lands in the lowercase digits. -/
theorem toLower_mem_lowerHex {c : Char} (h : (hexDigitVal? c).isSome = true) :
    Char.toLower c ∈ lowerHexChars := by
  have hm := hexDigit_enum h
  fin_cases hm <;> decide

/-- `parseInt` with radix 16 on one lowercase hexadecimal digit. -/
theorem jsParseIntHex_single {a : Char} (ha : a ∈ lowerHexChars) :
    jsParseIntHex ⟨[a]⟩ = some ((specHexVal a : Nat) : Int) := by
  fin_cases ha <;> decide

/-- `parseInt` with radix 16 on two lowercase hexadecimal digits. -/
theorem jsParseIntHex_pair {a b : Char} (ha : a ∈ lowerHexChars)
    (hb : b ∈ lowerHexChars) :
    jsParseIntHex ⟨[a, b]⟩ = some ((16 * specHexVal a + specHexVal b : Nat) : Int) := by
  fin_cases ha <;> fin_cases hb <;> decide

/-- `parseInt` of the empty string is NaN. -/
theorem jsParseIntHex_nil : jsParseIntHex (⟨[]⟩ : String) = none := rfl

/-- Printing a nonnegative JavaScript number. -/
theorem jsNumToString_ofNat (k : Nat) :
    jsNumToString (some ((k : Nat) : Int)) = toString k := by
  simp [jsNumToString]

/-- The characters of an appended string. -/
theorem data_append (s t : String) : (s ++ t).data = s.data ++ t.data := rfl

/-- String concatenation is associative. -/
theorem str_append_assoc (a b c : String) : (a ++ b) ++ c = a ++ (b ++ c) :=
  congrArg String.mk (List.append_assoc a.data b.data c.data)

/-- `hexToRgb` on a four-digit lowercase hex color: the blue component is
parsed from the empty substring and prints as NaN. -/
theorem hexToRgb_four {a b c d : Char} (ha : a ∈ lowerHexChars)
    (hb : b ∈ lowerHexChars) (hc : c ∈ lowerHexChars) (hd : d ∈ lowerHexChars) :
    hexToRgb ⟨['#', a, b, c, d]⟩ =
      "rgb(" ++ toString (16 * specHexVal a + specHexVal b) ++ "," ++
        toString (16 * specHexVal c + specHexVal d) ++ "," ++ "NaN" ++ ")" := by
  show "rgb(" ++
      jsNumToString (jsParseIntHex ⟨jsSubstring (removeFirstOcc '#' ['#', a, b, c, d])
        0 2⟩) ++ "," ++
      jsNumToString (jsParseIntHex ⟨jsSubstring (removeFirstOcc '#' ['#', a, b, c, d])
        2 4⟩) ++ "," ++
      jsNumToString (jsParseIntHex ⟨jsSubstring (removeFirstOcc '#' ['#', a, b, c, d])
        4 6⟩) ++ ")" = _
  rw [show removeFirstOcc '#' ['#', a, b, c, d] = [a, b, c, d] from rfl]
  rw [show jsSubstring [a, b, c, d] 0 2 = [a, b] from rfl,
    show jsSubstring [a, b, c, d] 2 4 = [c, d] from rfl,
    show jsSubstring [a, b, c, d] 4 6 = ([] : List Char) from rfl]
  rw [jsParseIntHex_pair ha hb, jsParseIntHex_pair hc hd, jsParseIntHex_nil]
  rw [jsNumToString_ofNat, jsNumToString_ofNat]
  rfl

/-- `hexToRgb` on a five-digit lowercase hex color: the blue component is
parsed from the single fifth digit. -/
theorem hexToRgb_five {a b c d e : Char} (ha : a ∈ lowerHexChars)
    (hb : b ∈ lowerHexChars) (hc : c ∈ lowerHexChars) (hd : d ∈ lowerHexChars)
    (he : e ∈ lowerHexChars) :
    hexToRgb ⟨['#', a, b, c, d, e]⟩ =
      "rgb(" ++ toString (16 * specHexVal a + specHexVal b) ++ "," ++
        toString (16 * specHexVal c + specHexVal d) ++ "," ++
        toString (specHexVal e) ++ ")" := by
  show "rgb(" ++
      jsNumToString (jsParseIntHex ⟨jsSubstring (removeFirstOcc '#' ['#', a, b, c, d, e])
        0 2⟩) ++ "," ++
      jsNumToString (jsParseIntHex ⟨jsSubstring (removeFirstOcc '#' ['#', a, b, c, d, e])
        2 4⟩) ++ "," ++
      jsNumToString (jsParseIntHex ⟨jsSubstring (removeFirstOcc '#' ['#', a, b, c, d, e])
        4 6⟩) ++ ")" = _
  rw [show removeFirstOcc '#' ['#', a, b, c, d, e] = [a, b, c, d, e] from rfl]
  rw [show jsSubstring [a, b, c, d, e] 0 2 = [a, b] from rfl,
    show jsSubstring [a, b, c, d, e] 2 4 = [c, d] from rfl,
    show jsSubstring [a, b, c, d, e] 4 6 = [e] from rfl]
  rw [jsParseIntHex_pair ha hb, jsParseIntHex_pair hc hd, jsParseIntHex_single he]
  rw [jsNumToString_ofNat, jsNumToString_ofNat, jsNumToString_ofNat]

set_option maxRecDepth 4000 in
/-- The decimal print of a number below 256 contains only characters that
are not whitespace, not `h` or `H`, and not parentheses or letters used
by the later normalization passes. -/
theorem repr_char_facts :
    ∀ n : Nat, n < 256 → ∀ c ∈ (Nat.repr n).data,
      jsWhitespace c = false ∧ c ≠ 'h' ∧ c ≠ 'H' := by decide

/-- The HSL pattern cannot match at a position whose first character is
not an `h`. -/
theorem matchHslAt_none {l : List Char} (h : ∀ c ∈ l, c ≠ 'h' ∧ c ≠ 'H') :
    matchHslAt l = none := by
  match l with
  | [] => rfl
  | [c1] => rfl
  | [c1, c2] => rfl
  | [c1, c2, c3] => rfl
  | c1 :: c2 :: c3 :: c4 :: rest =>
      have hc := h c1 (by simp)
      simp only [matchHslAt]
      rw [if_neg]
      rintro ⟨h1 | h1, -⟩
      · exact hc.1 h1
      · exact hc.2 h1

/-- The HSL search finds nothing in a string without an `h`. -/
theorem hslSearch_none {l : List Char} (h : ∀ c ∈ l, c ≠ 'h' ∧ c ≠ 'H') :
    hslSearch l = none := by
  induction l with
  | nil => rfl
  | cons c rest ih =>
      rw [hslSearch, matchHslAt_none h]
      exact ih (fun x hx => h x (by simp [hx]))

/-- Strings differing in their first four characters differ. -/
theorem take4_ne {s : String} {c1 c2 c3 c4 : Char} {t : List Char}
    (h : s.data.take 4 ≠ [c1, c2, c3, c4]) : s ≠ ⟨c1 :: c2 :: c3 :: c4 :: t⟩ := by
  intro he
  apply h
  rw [he]
  rfl

/-- No named color starts with `rgb(`. -/
theorem namedColors_rgb_none (t : List Char) :
    lookupAssoc namedColors ⟨'r' :: 'g' :: 'b' :: '(' :: t⟩ = none := by
  simp only [namedColors, lookupAssoc]
  rw [if_neg (take4_ne (by decide)), if_neg (take4_ne (by decide)),
    if_neg (take4_ne (by decide)), if_neg (take4_ne (by decide)),
    if_neg (take4_ne (by decide)), if_neg (take4_ne (by decide)),
    if_neg (take4_ne (by decide)), if_neg (take4_ne (by decide)),
    if_neg (take4_ne (by decide)), if_neg (take4_ne (by decide)),
    if_neg (take4_ne (by decide))]

/-- Removing whitespace from a whitespace-free list changes nothing. -/
theorem removeAllWs_of_no_ws {l : List Char} (h : ∀ c ∈ l, jsWhitespace c = false) :
    removeAllWs l = l := by
  unfold removeAllWs
  refine List.filter_eq_self.mpr ?_
  intro a ha
  simp [h a ha]

/-- The `rgba?(...)` collapse changes nothing on a whitespace-free list,
whatever the fuel: a match is replaced by its own whitespace-free text. -/
theorem rgbaCollapseFuel_no_ws :
    ∀ (fuel : Nat) (l : List Char), (∀ c ∈ l, jsWhitespace c = false) →
      rgbaCollapseFuel fuel l = l := by
  intro fuel
  induction fuel with
  | zero => intro l h; cases l <;> rfl
  | succ f ih =>
      intro l h
      cases l with
      | nil => rfl
      | cons c rest =>
          rw [rgbaCollapseFuel]
          cases hm : matchRgbaAt (c :: rest) with
          | none =>
              simp only []
              rw [ih rest (fun x hx => h x (by simp [hx]))]
          | some mt =>
              obtain ⟨hdecomp, hlen⟩ := matchRgbaAt_decomp hm
              simp only []
              have hall1 : ∀ x ∈ mt.1, jsWhitespace x = false := by
                intro x hx
                exact h x (by rw [hdecomp]; exact List.mem_append.mpr (Or.inl hx))
              have hall2 : ∀ x ∈ mt.2, jsWhitespace x = false := by
                intro x hx
                exact h x (by rw [hdecomp]; exact List.mem_append.mpr (Or.inr hx))
              rw [removeAllWs_of_no_ws hall1, ih mt.2 hall2]
              exact hdecomp.symm

/-- The `rgba?(...)` collapse at full fuel on a whitespace-free list. -/
theorem rgbaCollapseGo_of_no_ws {l : List Char}
    (h : ∀ c ∈ l, jsWhitespace c = false) : rgbaCollapseGo l = l :=
  rgbaCollapseFuel_no_ws l.length l h

/-- `dropWhile` stops at a head rejected by the predicate. -/
theorem dropWhile_head_false {p : Char → Bool} {a : Char} {l : List Char}
    (h : p a = false) : (a :: l).dropWhile p = a :: l := by
  simp [List.dropWhile_cons, h]

/-- The character decomposition and the character facts of the `rgb(...)`
text that `hexToRgb` builds from two parsed components and a blue part. -/
theorem rgb_string_facts {z : String}
    (hz : ∀ c ∈ z.data, jsWhitespace c = false ∧ c ≠ 'h' ∧ c ≠ 'H')
    (n1 n2 : Nat) (hn1 : n1 < 256) (hn2 : n2 < 256) :
    ("rgb(" ++ toString n1 ++ "," ++ toString n2 ++ "," ++ z ++ ")").data =
      'r' :: 'g' :: 'b' :: '(' ::
        ((toString n1).data ++ ([','] ++ ((toString n2).data ++
          ([','] ++ (z.data ++ [')'])))))
    ∧ (∀ c ∈ ("rgb(" ++ toString n1 ++ "," ++ toString n2 ++ "," ++ z ++ ")").data,
        jsWhitespace c = false ∧ c ≠ 'h' ∧ c ≠ 'H') := by
  have hdata : ("rgb(" ++ toString n1 ++ "," ++ toString n2 ++ "," ++ z ++ ")").data =
      'r' :: 'g' :: 'b' :: '(' ::
        ((toString n1).data ++ ([','] ++ ((toString n2).data ++
          ([','] ++ (z.data ++ [')']))))) := by
    simp [data_append, List.append_assoc,
      show ("rgb(" : String).data = ['r', 'g', 'b', '('] from rfl,
      show ("," : String).data = [','] from rfl,
      show (")" : String).data = [')'] from rfl]
  refine ⟨hdata, ?_⟩
  intro c hc
  rw [hdata] at hc
  simp only [List.mem_cons, List.mem_append, List.mem_singleton] at hc
  rcases hc with h | h | h | h | h
  · subst h; exact ⟨rfl, by decide, by decide⟩
  · subst h; exact ⟨rfl, by decide, by decide⟩
  · subst h; exact ⟨rfl, by decide, by decide⟩
  · subst h; exact ⟨rfl, by decide, by decide⟩
  rcases h with h | h
  · exact repr_char_facts n1 hn1 c h
  rcases h with h | h
  · rcases h with h | h
    · subst h; exact ⟨rfl, by decide, by decide⟩
    · simp at h
  rcases h with h | h
  · exact repr_char_facts n2 hn2 c h
  rcases h with h | h
  · rcases h with h | h
    · subst h; exact ⟨rfl, by decide, by decide⟩
    · simp at h
  rcases h with h | h
  · exact hz c h
  · rcases h with h | h
    · subst h; exact ⟨rfl, by decide, by decide⟩
    · simp at h

/-- The HSL, named-color, whitespace and `rgba?(...)` passes leave an
`rgb(...)` text with no whitespace and no `h` untouched. -/
theorem normalize_steps_id {R : String} {tRest : List Char}
    (hfacts : ∀ c ∈ R.data, jsWhitespace c = false ∧ c ≠ 'h' ∧ c ≠ 'H')
    (hhead : R.data = 'r' :: 'g' :: 'b' :: '(' :: tRest) :
    hslStep R = R ∧ namedStep R = R ∧
    rgbaCollapseGo (removeAllWs R.data) = R.data := by
  refine ⟨?_, ?_, ?_⟩
  · unfold hslStep
    rw [hslSearch_none (fun c hc => (hfacts c hc).2)]
  · unfold namedStep
    rw [show R = ⟨'r' :: 'g' :: 'b' :: '(' :: tRest⟩ from String.ext_iff.mpr hhead]
    rw [namedColors_rgb_none tRest]
  · rw [removeAllWs_of_no_ws (fun c hc => (hfacts c hc).1)]
    exact rgbaCollapseGo_of_no_ws (fun c hc => (hfacts c hc).1)

/-- C10: the hex-color detection accepts `#` followed by 4 or 5
hexadecimal digits as well as 3 or 6; every such 4- or 5-digit input is
rewritten to an `rgb(...)` string rather than passed through, and in the
4-digit case the blue component is parsed from an empty substring, so the
output has the form `rgb(r,g,NaN)`; in particular
`normalize("#abcd") = "rgb(171,205,NaN)"`. -/
theorem c10_hex_4_and_5_digits :
    (∀ c1 c2 c3 c4 : Char,
      (hexDigitVal? c1).isSome = true → (hexDigitVal? c2).isSome = true →
      (hexDigitVal? c3).isSome = true → (hexDigitVal? c4).isSome = true →
      normalizeCSSValue ⟨['#', c1, c2, c3, c4]⟩ =
        "rgb(" ++ toString (16 * specHexVal c1 + specHexVal c2) ++ "," ++
          toString (16 * specHexVal c3 + specHexVal c4) ++ "," ++ "NaN" ++ ")" ∧
      normalizeCSSValue ⟨['#', c1, c2, c3, c4]⟩ ≠ ⟨['#', c1, c2, c3, c4]⟩)
    ∧ (∀ c1 c2 c3 c4 c5 : Char,
      (hexDigitVal? c1).isSome = true → (hexDigitVal? c2).isSome = true →
      (hexDigitVal? c3).isSome = true → (hexDigitVal? c4).isSome = true →
      (hexDigitVal? c5).isSome = true →
      normalizeCSSValue ⟨['#', c1, c2, c3, c4, c5]⟩ =
        "rgb(" ++ toString (16 * specHexVal c1 + specHexVal c2) ++ "," ++
          toString (16 * specHexVal c3 + specHexVal c4) ++ "," ++
          toString (specHexVal c5) ++ ")" ∧
      normalizeCSSValue ⟨['#', c1, c2, c3, c4, c5]⟩ ≠ ⟨['#', c1, c2, c3, c4, c5]⟩)
    ∧ normalizeCSSValue "#abcd" = "rgb(171,205,NaN)" := by
  refine ⟨?_, ?_, by decide⟩
  · intro c1 c2 c3 c4 h1 h2 h3 h4
    obtain ⟨hw1, hval1, -, -, -, -, -, hs1, hle1⟩ := hexDigit_char_facts h1
    obtain ⟨hw2, hval2, -, -, -, -, -, hs2, hle2⟩ := hexDigit_char_facts h2
    obtain ⟨hw3, hval3, -, -, -, -, -, hs3, hle3⟩ := hexDigit_char_facts h3
    obtain ⟨hw4, hval4, -, -, -, -, -, hs4, hle4⟩ := hexDigit_char_facts h4
    have htrimL : jsTrimL ['#', c1, c2, c3, c4] = ['#', c1, c2, c3, c4] := by
      unfold jsTrimL
      rw [dropWhile_head_false (show jsWhitespace '#' = false from rfl)]
      rw [show (['#', c1, c2, c3, c4] : List Char).reverse = [c4, c3, c2, c1, '#']
        from by simp]
      rw [dropWhile_head_false hw4]
      simp
    have hhexcolor : isHexColor ⟨['#', Char.toLower c1, Char.toLower c2,
        Char.toLower c3, Char.toLower c4]⟩ = true := by
      simp [isHexColor, hs1, hs2, hs3, hs4]
    have hhexstep : hexStep ⟨['#', Char.toLower c1, Char.toLower c2,
        Char.toLower c3, Char.toLower c4]⟩ =
        "rgb(" ++ toString (16 * specHexVal c1 + specHexVal c2) ++ "," ++
          toString (16 * specHexVal c3 + specHexVal c4) ++ "," ++ "NaN" ++ ")" := by
      unfold hexStep
      rw [if_pos hhexcolor]
      rw [hexToRgb_four (toLower_mem_lowerHex h1) (toLower_mem_lowerHex h2)
        (toLower_mem_lowerHex h3) (toLower_mem_lowerHex h4)]
      rw [show specHexVal (Char.toLower c1) = specHexVal c1 from by
          unfold specHexVal; rw [hval1],
        show specHexVal (Char.toLower c2) = specHexVal c2 from by
          unfold specHexVal; rw [hval2],
        show specHexVal (Char.toLower c3) = specHexVal c3 from by
          unfold specHexVal; rw [hval3],
        show specHexVal (Char.toLower c4) = specHexVal c4 from by
          unfold specHexVal; rw [hval4]]
    have hn1 : 16 * specHexVal c1 + specHexVal c2 < 256 := by omega
    have hn2 : 16 * specHexVal c3 + specHexVal c4 < 256 := by omega
    obtain ⟨hRdata, hRfacts⟩ := rgb_string_facts (z := "NaN") (by decide)
      (16 * specHexVal c1 + specHexVal c2) (16 * specHexVal c3 + specHexVal c4)
      hn1 hn2
    obtain ⟨hhsl, hnamed, hcollapse⟩ := normalize_steps_id hRfacts hRdata
    have heq : normalizeCSSValue ⟨['#', c1, c2, c3, c4]⟩ =
        "rgb(" ++ toString (16 * specHexVal c1 + specHexVal c2) ++ "," ++
          toString (16 * specHexVal c3 + specHexVal c4) ++ "," ++ "NaN" ++ ")" := by
      simp only [normalizeCSSValue]
      rw [if_neg (show (⟨['#', c1, c2, c3, c4]⟩ : String) ≠ "" from by
        simp [String.ext_iff])]
      rw [show jsTrim ⟨['#', c1, c2, c3, c4]⟩ = ⟨['#', c1, c2, c3, c4]⟩ from
        congrArg String.mk htrimL]
      rw [show (⟨(⟨['#', c1, c2, c3, c4]⟩ : String).data.map Char.toLower⟩ : String) =
        ⟨['#', Char.toLower c1, Char.toLower c2, Char.toLower c3, Char.toLower c4]⟩
        from rfl]
      rw [hhexstep, hhsl, hnamed, hcollapse]
    refine ⟨heq, ?_⟩
    rw [heq]
    intro hcontra
    have hd := congrArg String.data hcontra
    rw [hRdata] at hd
    injection hd with hh _
    exact absurd hh (by decide)
  · intro c1 c2 c3 c4 c5 h1 h2 h3 h4 h5
    obtain ⟨hw1, hval1, -, -, -, -, -, hs1, hle1⟩ := hexDigit_char_facts h1
    obtain ⟨hw2, hval2, -, -, -, -, -, hs2, hle2⟩ := hexDigit_char_facts h2
    obtain ⟨hw3, hval3, -, -, -, -, -, hs3, hle3⟩ := hexDigit_char_facts h3
    obtain ⟨hw4, hval4, -, -, -, -, -, hs4, hle4⟩ := hexDigit_char_facts h4
    obtain ⟨hw5, hval5, -, -, -, -, -, hs5, hle5⟩ := hexDigit_char_facts h5
    have htrimL : jsTrimL ['#', c1, c2, c3, c4, c5] = ['#', c1, c2, c3, c4, c5] := by
      unfold jsTrimL
      rw [dropWhile_head_false (show jsWhitespace '#' = false from rfl)]
      rw [show (['#', c1, c2, c3, c4, c5] : List Char).reverse =
        [c5, c4, c3, c2, c1, '#'] from by simp]
      rw [dropWhile_head_false hw5]
      simp
    have hhexcolor : isHexColor ⟨['#', Char.toLower c1, Char.toLower c2,
        Char.toLower c3, Char.toLower c4, Char.toLower c5]⟩ = true := by
      simp [isHexColor, hs1, hs2, hs3, hs4, hs5]
    have hhexstep : hexStep ⟨['#', Char.toLower c1, Char.toLower c2,
        Char.toLower c3, Char.toLower c4, Char.toLower c5]⟩ =
        "rgb(" ++ toString (16 * specHexVal c1 + specHexVal c2) ++ "," ++
          toString (16 * specHexVal c3 + specHexVal c4) ++ "," ++
          toString (specHexVal c5) ++ ")" := by
      unfold hexStep
      rw [if_pos hhexcolor]
      rw [hexToRgb_five (toLower_mem_lowerHex h1) (toLower_mem_lowerHex h2)
        (toLower_mem_lowerHex h3) (toLower_mem_lowerHex h4) (toLower_mem_lowerHex h5)]
      rw [show specHexVal (Char.toLower c1) = specHexVal c1 from by
          unfold specHexVal; rw [hval1],
        show specHexVal (Char.toLower c2) = specHexVal c2 from by
          unfold specHexVal; rw [hval2],
        show specHexVal (Char.toLower c3) = specHexVal c3 from by
          unfold specHexVal; rw [hval3],
        show specHexVal (Char.toLower c4) = specHexVal c4 from by
          unfold specHexVal; rw [hval4],
        show specHexVal (Char.toLower c5) = specHexVal c5 from by
          unfold specHexVal; rw [hval5]]
    have hn1 : 16 * specHexVal c1 + specHexVal c2 < 256 := by omega
    have hn2 : 16 * specHexVal c3 + specHexVal c4 < 256 := by omega
    have hn3 : specHexVal c5 < 256 := by omega
    obtain ⟨hRdata, hRfacts⟩ := rgb_string_facts (z := toString (specHexVal c5))
      (repr_char_facts (specHexVal c5) hn3)
      (16 * specHexVal c1 + specHexVal c2) (16 * specHexVal c3 + specHexVal c4)
      hn1 hn2
    obtain ⟨hhsl, hnamed, hcollapse⟩ := normalize_steps_id hRfacts hRdata
    have heq : normalizeCSSValue ⟨['#', c1, c2, c3, c4, c5]⟩ =
        "rgb(" ++ toString (16 * specHexVal c1 + specHexVal c2) ++ "," ++
          toString (16 * specHexVal c3 + specHexVal c4) ++ "," ++
          toString (specHexVal c5) ++ ")" := by
      simp only [normalizeCSSValue]
      rw [if_neg (show (⟨['#', c1, c2, c3, c4, c5]⟩ : String) ≠ "" from by
        simp [String.ext_iff])]
      rw [show jsTrim ⟨['#', c1, c2, c3, c4, c5]⟩ = ⟨['#', c1, c2, c3, c4, c5]⟩ from
        congrArg String.mk htrimL]
      rw [show (⟨(⟨['#', c1, c2, c3, c4, c5]⟩ : String).data.map Char.toLower⟩ : String) =
        ⟨['#', Char.toLower c1, Char.toLower c2, Char.toLower c3, Char.toLower c4,
          Char.toLower c5]⟩ from rfl]
      rw [hhexstep, hhsl, hnamed, hcollapse]
    refine ⟨heq, ?_⟩
    rw [heq]
    intro hcontra
    have hd := congrArg String.data hcontra
    rw [hRdata] at hd
    injection hd with hh _
    exact absurd hh (by decide)

/-- C10 witness: a concrete four-digit hex color, with mixed case. -/
theorem c10_hex_4_and_5_digits_witness :
    normalizeCSSValue "#1A2b" =
      "rgb(" ++ toString (16 * specHexVal '1' + specHexVal 'A') ++ "," ++
        toString (16 * specHexVal '2' + specHexVal 'b') ++ "," ++ "NaN" ++ ")" :=
  (c10_hex_4_and_5_digits.1 '1' 'A' '2' 'b'
    (by decide) (by decide) (by decide) (by decide)).1

end CssQuery
